import Mathlib

/-!
Verification of the lumail2 mail client core against its specification.

The development shallowly embeds the parts of the program the claims talk
about:

* `src/message.cc` (`CMessage`): flag parsing and mutation (`get_flags`,
  `set_flags`, `has_flag`, `add_flag`, `remove_flag`, `is_new`,
  `mark_read`), the parse-failure recovery scan of `parse_message`, the
  header/MIME-part caches and `add_attachments`.
* the Lua threading module (`Threader` and `Container`): the JWZ-style
  threading algorithm and the thread sort.

C++ `std::string` values are embedded as `List Char`.  Filesystem
operations (`rename`/`CFile::move`) are modelled on the happy path: the
rename succeeds and the in-memory path is updated; the renames a call
performs are reported explicitly so theorems can talk about them.
-/

namespace Lumail

/-- Strings of the embedded program (`std::string` / Lua strings). -/
abbrev Str := List Char

/-- Boolean test that `pat` starts the string `s` (used by `strfind`). -/
def leadsWith : Str → Str → Bool
  | [], _ => true
  | _ :: _, [] => false
  | p :: ps, c :: cs => p = c && leadsWith ps cs

/-- Propositional version of `leadsWith`: `s` starts with `pat`. -/
def LeadsTo (pat s : Str) : Prop := ∃ t, s = pat ++ t

/-- Embedding of `std::string::find(pat)`: index of the first occurrence of
`pat`, `none` playing the role of `std::string::npos`.  (All patterns used
by the program are non-empty.) -/
def strfind (pat : Str) : Str → Option Nat
  | [] => none
  | c :: rest =>
      if leadsWith pat (c :: rest) then some 0
      else (strfind pat rest).map (· + 1)

/-- The flag suffix marker `":2,"` of the Maildir convention. -/
def pat2 : Str := [':', '2', ',']

/-- The directory segment `"/new/"`. -/
def patNew : Str := ['/', 'n', 'e', 'w', '/']

/-- The directory segment `"/cur/"`. -/
def patCur : Str := ['/', 'c', 'u', 'r', '/']

/-- Embedding of C `toupper` for the ASCII arguments the program uses. -/
def cToUpper (c : Char) : Char := c.toUpper

/-- Embedding of `std::sort` on the characters of a flag string: the result
is the unique `≤`-sorted permutation, realised by insertion sort. -/
def sortChars (s : Str) : Str := List.insertionSort (· ≤ ·) s

/-- Helper for `cppUnique`: `a` is the last character kept so far. -/
def cppUniqueAux (a : Char) : Str → Str
  | [] => [a]
  | b :: rest => if a = b then cppUniqueAux a rest else a :: cppUniqueAux b rest

/-- Embedding of the `flags.erase(std::unique(...), flags.end())` idiom:
collapse runs of equal adjacent characters, keeping the first of each run. -/
def cppUnique : Str → Str
  | [] => []
  | a :: rest => cppUniqueAux a rest

/-- The sort-then-deduplicate step `CMessage` applies to flag strings. -/
def canonize (s : Str) : Str := cppUnique (sortChars s)

/-- The fields of a `CMessage` relevant to flag handling: the path, the
local/IMAP discriminator `m_imap`, and the in-memory IMAP flag string. -/
structure CMsg where
  m_path : Str
  m_imap : Bool
  m_imap_flags : Str
deriving Repr, DecidableEq, Inhabited

/-- `CMessage::get_flags`: IMAP messages return `m_imap_flags` verbatim;
local messages parse the `":2,"` suffix of the path, force `'N'` when the
path contains `"/new/"`, then sort and deduplicate. -/
def get_flags (m : CMsg) : Str :=
  if m.m_imap then m.m_imap_flags
  else if m.m_path = [] then []
  else
    let flags := match strfind pat2 m.m_path with
      | some off => m.m_path.drop (off + 3)
      | none => []
    let flags := if (strfind patNew m.m_path).isSome then flags ++ ['N'] else flags
    canonize flags

/-- The destination stem `set_flags` keeps: the part of the path before the
first `":2,"`, or the whole path when there is no such suffix. -/
def pathStem (p : Str) : Str :=
  match strfind pat2 p with
  | some off => p.take off
  | none => p

/-- `CMessage::set_flags`: canonize the new flags, rebuild the path as
`stem ++ ":2," ++ flags`, and rename the file when the path changed.  The
second component reports the rename `(src, dst)` performed, if any. -/
def set_flags (m : CMsg) (newFlags : Str) : CMsg × Option (Str × Str) :=
  let flags := canonize newFlags
  let cur := m.m_path
  let dst := pathStem cur ++ pat2 ++ flags
  if cur ≠ dst then ({ m with m_path := dst }, some (cur, dst)) else (m, none)

/-- `CMessage::has_flag`: upper-case the argument and search the current
flag string for it. -/
def has_flag (m : CMsg) (c : Char) : Bool :=
  (strfind [cToUpper c] (get_flags m)).isSome

/-- `CMessage::is_new`: the flag `'N'` is present or the flag `'S'` is
absent. -/
def is_new (m : CMsg) : Bool := has_flag m 'N' || !has_flag m 'S'

/-- `CMessage::add_flag`: append the character when missing and write the
result back through `set_flags`.  Returns the updated message, whether the
flag set changed, and the rename performed by `set_flags`, if any. -/
def add_flag (m : CMsg) (c : Char) : CMsg × Bool × Option (Str × Str) :=
  let flags := get_flags m
  match strfind [c] flags with
  | none =>
      let r := set_flags m (flags ++ [c])
      (r.1, true, r.2)
  | some _ => (m, false, none)

/-- `CMessage::remove_flag`: upper-case the argument, erase every occurrence
from the flag string, and write the result back through `set_flags`. -/
def remove_flag (m : CMsg) (c : Char) : CMsg × Bool × Option (Str × Str) :=
  let c := cToUpper c
  let current := get_flags m
  match strfind [c] current with
  | none => (m, false, none)
  | some _ =>
      let r := set_flags m (current.filter (· ≠ c))
      (r.1, true, r.2)

/-- The state `mark_read`/`mark_unread` operate on: the message plus the
parent folder's unread counter and modification time, and the message's
logical revision counter `m_time`. -/
structure MState where
  msg : CMsg
  folderUnread : Int
  folderMtime : Nat
  msgTime : Nat
deriving Repr, DecidableEq

/-- `CMessage::set_imap_flags`: sort and deduplicate the given string, store
it, and bump the revision counters. -/
def set_imap_flags (st : MState) (flags : Str) : MState :=
  { st with msg := { st.msg with m_imap_flags := canonize flags },
            msgTime := st.msgTime + 1,
            folderMtime := st.folderMtime + 1 }

/-- `CMessage::mark_read`.  IMAP branch: send `mark_read` over the proxy
channel (the reply is ignored), strip every `'N'` from `m_imap_flags`,
append `'S'` when absent, bump both revision counters, and clamp the parent
folder's unread counter at zero.  Local branch: when the path contains
`"/new/"`, rename into the sibling `"/cur/"` directory and `add_flag 'S'`;
otherwise `remove_flag 'N'` then `add_flag 'S'`.  The second component
lists the renames performed, in order. -/
def mark_read (st : MState) : MState × List (Str × Str) :=
  if st.msg.m_imap then
    let fl := st.msg.m_imap_flags.filter (· ≠ 'N')
    let fl := if (strfind ['S'] fl).isSome then fl else fl ++ ['S']
    let c : Int := st.folderUnread - 1
    let c := if c < 0 then 0 else c
    ({ msg := { st.msg with m_imap_flags := fl },
       folderUnread := c,
       folderMtime := st.folderMtime + 1,
       msgTime := st.msgTime + 1 }, [])
  else
    match strfind patNew st.msg.m_path with
    | some off =>
        let before := st.msg.m_path.take off
        let after := st.msg.m_path.drop (off + 5)
        let n := before ++ patCur ++ after
        let m1 : CMsg := { st.msg with m_path := n }
        let r := add_flag m1 'S'
        ({ st with msg := r.1 }, (st.msg.m_path, n) :: r.2.2.toList)
    | none =>
        let r1 := remove_flag st.msg 'N'
        let r2 := add_flag r1.1 'S'
        ({ st with msg := r2.1 }, r1.2.2.toList ++ r2.2.2.toList)

theorem leadsWith_iff (pat s : Str) : leadsWith pat s = true ↔ LeadsTo pat s := by
  induction pat generalizing s with
  | nil => simp [leadsWith, LeadsTo]
  | cons p ps ih =>
    cases s with
    | nil =>
      simp [leadsWith, LeadsTo]
    | cons c cs =>
      simp only [leadsWith, Bool.and_eq_true, decide_eq_true_eq, ih, LeadsTo,
        List.cons_append, List.cons.injEq]
      constructor
      · rintro ⟨rfl, t, rfl⟩
        exact ⟨t, rfl, rfl⟩
      · rintro ⟨t, rfl, rfl⟩
        exact ⟨rfl, t, rfl⟩

theorem strfind_occurs {pat s : Str} {i : Nat} (h : strfind pat s = some i) :
    LeadsTo pat (s.drop i) := by
  induction s generalizing i with
  | nil => simp [strfind] at h
  | cons c rest ih =>
    rw [strfind] at h
    split at h
    · rename_i hl
      cases h
      simpa using (leadsWith_iff _ _).mp hl
    · cases hf : strfind pat rest with
      | none => rw [hf] at h; simp at h
      | some j =>
        rw [hf] at h
        simp only [Option.map_some'] at h
        cases h
        simpa using ih hf

theorem strfind_min {pat s : Str} {i : Nat} (h : strfind pat s = some i) :
    ∀ j, j < i → ¬ LeadsTo pat (s.drop j) := by
  induction s generalizing i with
  | nil => simp [strfind] at h
  | cons c rest ih =>
    rw [strfind] at h
    split at h
    · cases h
      intro j hj
      omega
    · rename_i hl
      cases hf : strfind pat rest with
      | none => rw [hf] at h; simp at h
      | some k =>
        rw [hf] at h
        simp only [Option.map_some'] at h
        cases h
        intro j hj
        cases j with
        | zero =>
          intro hL
          exact hl ((leadsWith_iff _ _).mpr (by simpa using hL))
        | succ j' =>
          simpa using ih hf j' (by omega)

theorem strfind_none {pat s : Str} (hp : pat ≠ []) (h : strfind pat s = none) :
    ∀ j, ¬ LeadsTo pat (s.drop j) := by
  induction s with
  | nil =>
    rintro j ⟨t, ht⟩
    rw [List.drop_nil] at ht
    exact hp (List.append_eq_nil.mp ht.symm).1
  | cons c rest ih =>
    rw [strfind] at h
    split at h
    · simp at h
    · rename_i hl
      have hrest : strfind pat rest = none := by
        cases hf : strfind pat rest with
        | none => rfl
        | some k => rw [hf] at h; simp at h
      intro j
      cases j with
      | zero =>
        intro hL
        exact hl ((leadsWith_iff _ _).mpr (by simpa using hL))
      | succ j' =>
        simpa using ih hrest j'

theorem strfind_none_of_no_occurs {pat s : Str}
    (h : ∀ j, ¬ LeadsTo pat (s.drop j)) : strfind pat s = none := by
  cases hf : strfind pat s with
  | none => rfl
  | some i => exact absurd (strfind_occurs hf) (h i)

theorem strfind_eq_some {pat s : Str} {i : Nat} (hp : pat ≠ [])
    (hocc : LeadsTo pat (s.drop i))
    (hmin : ∀ j, j < i → ¬ LeadsTo pat (s.drop j)) :
    strfind pat s = some i := by
  cases hf : strfind pat s with
  | none => exact absurd hocc (strfind_none hp hf i)
  | some k =>
    rcases Nat.lt_trichotomy k i with hki | rfl | hik
    · exact absurd (strfind_occurs hf) (hmin k hki)
    · rfl
    · exact absurd hocc (strfind_min hf i hik)

theorem leadsTo_of_take {pat p : Str} {n : Nat} (h : LeadsTo pat (p.take n)) :
    LeadsTo pat p := by
  rcases h with ⟨t, ht⟩
  refine ⟨t ++ p.drop n, ?_⟩
  conv_lhs => rw [← List.take_append_drop n p]
  rw [ht, List.append_assoc]

theorem leadsTo_take_drop {pat p : Str} {n j : Nat}
    (h : LeadsTo pat ((p.take n).drop j)) : LeadsTo pat (p.drop j) := by
  rw [List.drop_take] at h
  exact leadsTo_of_take h

theorem leadsTo_length_le {pat s : Str} (h : LeadsTo pat s) :
    pat.length ≤ s.length := by
  rcases h with ⟨t, rfl⟩
  simp

theorem leadsTo_append_left {pat a b : Str} {j : Nat}
    (h : LeadsTo pat ((a ++ b).drop j)) (hj : j + pat.length ≤ a.length) :
    LeadsTo pat (a.drop j) := by
  rcases h with ⟨t, ht⟩
  rw [List.drop_append_of_le_length (by omega)] at ht
  have hlen : pat.length ≤ (a.drop j).length := by
    rw [List.length_drop]
    omega
  have htake : (a.drop j).take pat.length = pat := by
    have h2 := congrArg (List.take pat.length) ht
    rwa [List.take_append_of_le_length hlen, List.take_left' rfl] at h2
  refine ⟨(a.drop j).drop pat.length, ?_⟩
  conv_lhs => rw [← List.take_append_drop pat.length (a.drop j)]
  rw [htake]

theorem leadsTo_getElem {pat s t : Str} {j k : Nat} (ht : s.drop j = pat ++ t)
    (hk : k < pat.length) : s[j + k]? = pat[k]? := by
  rw [← List.getElem?_drop, ht, List.getElem?_append_left hk]

theorem strfind_pat2_append (pre F : Str)
    (hpre : ∀ j, ¬ LeadsTo pat2 (pre.drop j)) :
    strfind pat2 (pre ++ pat2 ++ F) = some pre.length := by
  apply strfind_eq_some (by decide)
  · rw [List.append_assoc, List.drop_left]
    exact ⟨F, rfl⟩
  · intro j hj hL
    rw [List.append_assoc] at hL
    rcases Nat.lt_or_ge (j + 3) (pre.length + 1) with hcase | hcase
    · exact hpre j (leadsTo_append_left hL (by simpa [pat2] using (by omega : j + 3 ≤ pre.length)))
    · rcases hL with ⟨t, ht⟩
      have hcolon : (pre ++ (pat2 ++ F))[pre.length]? = some ':' := by
        rw [List.getElem?_append_right (Nat.le_refl _), Nat.sub_self]
        rfl
      rcases (by omega : j + 1 = pre.length ∨ j + 2 = pre.length) with h1 | h1
      · have h2 := leadsTo_getElem ht (show 1 < pat2.length by decide)
        rw [h1, hcolon] at h2
        have : (':' : Char) = '2' := by
          have := h2.symm
          simpa [pat2] using this
        exact absurd this (by decide)
      · have h2 := leadsTo_getElem ht (show 2 < pat2.length by decide)
        rw [h1, hcolon] at h2
        have : (':' : Char) = ',' := by
          have := h2.symm
          simpa [pat2] using this
        exact absurd this (by decide)

theorem no_occurs_append {pat a b : Str} (hp : pat ≠ [])
    (ha : ∀ j, ¬ LeadsTo pat (a.drop j))
    (hb : ∀ c ∈ pat, c ∉ b) :
    ∀ j, ¬ LeadsTo pat ((a ++ b).drop j) := by
  intro j hL
  rcases Nat.lt_or_ge (j + pat.length) (a.length + 1) with hcase | hcase
  · exact ha j (leadsTo_append_left hL (by omega))
  · rcases hL with ⟨t, ht⟩
    have hpatpos : 0 < pat.length := by
      cases pat with
      | nil => exact absurd rfl hp
      | cons x xs => simp
    have hlen : j + pat.length ≤ a.length + b.length := by
      have h2 := leadsTo_length_le ⟨t, ht⟩
      rw [List.length_drop, List.length_append] at h2
      omega
    have hklt : max j a.length - j < pat.length := by omega
    have hc1 : (a ++ b)[j + (max j a.length - j)]? = pat[max j a.length - j]? :=
      leadsTo_getElem ht hklt
    have hjp : j + (max j a.length - j) = max j a.length := by omega
    rw [hjp] at hc1
    have hc2 : (a ++ b)[max j a.length]? = b[max j a.length - a.length]? :=
      List.getElem?_append_right (Nat.le_max_right _ _)
    obtain ⟨c, hcp⟩ : ∃ c, pat[max j a.length - j]? = some c := by
      rw [List.getElem?_eq_getElem hklt]
      exact ⟨_, rfl⟩
    have hcpat : c ∈ pat := List.getElem?_mem hcp
    have hcb : c ∈ b := List.getElem?_mem (by rw [← hc2, hc1, hcp])
    exact hb c hcpat hcb

theorem mem_cppUniqueAux (l : Str) (a x : Char) :
    x ∈ cppUniqueAux a l ↔ x = a ∨ x ∈ l := by
  induction l generalizing a with
  | nil => simp [cppUniqueAux]
  | cons b rest ih =>
    rw [cppUniqueAux]
    split
    · rename_i hab
      subst hab
      rw [ih]
      simp
    · simp [List.mem_cons, ih]

theorem pairwise_cppUniqueAux (l : Str) (a : Char)
    (h : List.Sorted (· ≤ ·) (a :: l)) :
    List.Pairwise (· < ·) (cppUniqueAux a l) := by
  induction l generalizing a with
  | nil => simp [cppUniqueAux]
  | cons b rest ih =>
    rw [List.sorted_cons] at h
    obtain ⟨hall, hsort⟩ := h
    rw [cppUniqueAux]
    split
    · rename_i hab
      subst hab
      exact ih _ hsort
    · rename_i hab
      refine List.Pairwise.cons ?_ (ih b hsort)
      intro y hy
      rcases (mem_cppUniqueAux rest b y).mp hy with rfl | hyr
      · exact lt_of_le_of_ne (hall _ (by simp)) hab
      · have hby : b ≤ y := (List.sorted_cons.mp hsort).1 y hyr
        exact lt_of_lt_of_le (lt_of_le_of_ne (hall b (by simp)) hab) hby

theorem pairwise_canonize (s : Str) : List.Pairwise (· < ·) (canonize s) := by
  have hs : List.Sorted (· ≤ ·) (sortChars s) := List.sorted_insertionSort _ s
  rw [canonize]
  cases hc : sortChars s with
  | nil => simp [cppUnique]
  | cons a l =>
    rw [cppUnique]
    exact pairwise_cppUniqueAux l a (hc ▸ hs)

theorem mem_canonize (s : Str) (x : Char) : x ∈ canonize s ↔ x ∈ s := by
  have hperm : x ∈ sortChars s ↔ x ∈ s := (List.perm_insertionSort _ s).mem_iff
  rw [canonize]
  cases hc : sortChars s with
  | nil =>
    rw [← hperm, hc]
    simp [cppUnique]
  | cons a l =>
    rw [cppUnique, mem_cppUniqueAux, ← hperm, hc]
    simp

theorem cppUniqueAux_eq_cons (l : Str) (a : Char)
    (h : List.Pairwise (· < ·) (a :: l)) : cppUniqueAux a l = a :: l := by
  induction l generalizing a with
  | nil => simp [cppUniqueAux]
  | cons b rest ih =>
    rw [List.pairwise_cons] at h
    have hab : a ≠ b := ne_of_lt (h.1 b (by simp))
    rw [cppUniqueAux, if_neg hab, ih b h.2]

theorem canonize_eq_self {F : Str} (h : List.Pairwise (· < ·) F) :
    canonize F = F := by
  have hsort : sortChars F = F :=
    List.Sorted.insertionSort_eq (h.imp le_of_lt)
  rw [canonize, hsort]
  cases F with
  | nil => rfl
  | cons a l => exact cppUniqueAux_eq_cons l a h

theorem sorted_canonize (s : Str) : List.Sorted (· ≤ ·) (canonize s) :=
  (pairwise_canonize s).imp le_of_lt

theorem nodup_canonize (s : Str) : (canonize s).Nodup :=
  (pairwise_canonize s).imp ne_of_lt

theorem strfind_char_isSome (c : Char) (s : Str) :
    (strfind [c] s).isSome = true ↔ c ∈ s := by
  induction s with
  | nil => simp [strfind]
  | cons d rest ih =>
    rw [strfind]
    by_cases hcd : c = d
    · subst hcd
      rw [if_pos (by simp [leadsWith])]
      simp
    · rw [if_neg (by simp [leadsWith, hcd])]
      have hmap : (Option.map (· + 1) (strfind [c] rest)).isSome
          = (strfind [c] rest).isSome := by
        cases strfind [c] rest <;> rfl
      rw [hmap, ih]
      simp [List.mem_cons, hcd]

/-- C1.  `is_new()` is true iff flag `'N'` is present in the message's
flags or flag `'S'` is absent; in particular a message with neither is new,
and `is_new()` is false exactly when `'S'` is present and `'N'` absent. -/
theorem is_new_iff (m : CMsg) :
    is_new m = true ↔ ('N' ∈ get_flags m ∨ 'S' ∉ get_flags m) := by
  have hN : cToUpper 'N' = 'N' := by decide
  have hS : cToUpper 'S' = 'S' := by decide
  rw [is_new, has_flag, has_flag, hN, hS, Bool.or_eq_true, Bool.not_eq_true',
    strfind_char_isSome]
  constructor
  · rintro (h | h)
    · exact Or.inl h
    · exact Or.inr (fun hm => by
        rw [(strfind_char_isSome 'S' (get_flags m)).mpr hm] at h
        simp at h)
  · rintro (h | h)
    · exact Or.inl h
    · refine Or.inr ?_
      cases hiss : (strfind ['S'] (get_flags m)).isSome with
      | false => rfl
      | true => exact absurd ((strfind_char_isSome 'S' (get_flags m)).mp hiss) h

/-- C3 counterexample.  `get_flags()` is not always canonical in the claimed
sense: a local message whose suffix carries a lower-case flag returns that
flag un-uppercased, and an IMAP message reached via `set_imap_flags "T"`
followed by `mark_read()` returns the unsorted string `"TS"`. -/
theorem get_flags_not_canonical_cex :
    (get_flags ⟨('a' :: pat2 ++ ['s']), false, []⟩ = ['s'] ∧
      ('s').isUpper = false) ∧
    (get_flags (mark_read (set_imap_flags ⟨⟨['c'], true, []⟩, 5, 0, 0⟩ ['T'])).1.msg
        = ['T', 'S'] ∧
      ¬ (('T' : Char) ≤ 'S')) := by
  constructor
  · exact ⟨by decide, by decide⟩
  · exact ⟨by decide, by decide⟩

/-- C3 (amended).  For every local message, `get_flags()` is sorted and
duplicate-free (though not necessarily upper-case), and when the path
contains the segment `"/new/"` the result contains `'N'`. -/
theorem get_flags_sorted_nodup_new (m : CMsg) (h : m.m_imap = false) :
    List.Sorted (· ≤ ·) (get_flags m) ∧ (get_flags m).Nodup ∧
    ((strfind patNew m.m_path).isSome = true → 'N' ∈ get_flags m) := by
  rw [get_flags, h]
  simp only [Bool.false_eq_true, if_false]
  by_cases hp : m.m_path = []
  · rw [if_pos hp]
    refine ⟨List.sorted_nil, List.nodup_nil, fun hnew => ?_⟩
    rw [hp] at hnew
    simp [strfind] at hnew
  · rw [if_neg hp]
    refine ⟨sorted_canonize _, nodup_canonize _, fun hnew => ?_⟩
    rw [hnew]
    simp only [if_true]
    rw [mem_canonize]
    simp

/-- C3 witness. -/
theorem get_flags_sorted_nodup_new_witness :
    List.Sorted (· ≤ ·) (get_flags ⟨"/md/new/x".toList, false, []⟩) ∧
    (get_flags ⟨"/md/new/x".toList, false, []⟩).Nodup ∧
    ((strfind patNew ("/md/new/x".toList : Str)).isSome = true →
      'N' ∈ get_flags ⟨"/md/new/x".toList, false, []⟩) :=
  get_flags_sorted_nodup_new ⟨"/md/new/x".toList, false, []⟩ rfl

/-- C10.  For an IMAP message, `mark_read()` sets the parent folder's
unread counter to `max 0 (previous - 1)`; the counter is never assigned a
negative value. -/
theorem mark_read_imap_unread_clamped (st : MState) (h : st.msg.m_imap = true) :
    (mark_read st).1.folderUnread = max 0 (st.folderUnread - 1) ∧
    0 ≤ (mark_read st).1.folderUnread := by
  rw [mark_read, h]
  simp only [if_true]
  constructor
  · by_cases hc : st.folderUnread - 1 < 0
    · rw [if_pos hc]
      omega
    · rw [if_neg hc]
      omega
  · by_cases hc : st.folderUnread - 1 < 0
    · rw [if_pos hc]
    · rw [if_neg hc]
      omega

/-- C10 witness: marking an already-read IMAP message read in a folder with
zero unread messages leaves the counter at zero. -/
theorem mark_read_imap_unread_clamped_witness :
    (mark_read ⟨⟨['c'], true, ['S']⟩, 0, 0, 0⟩).1.folderUnread
        = max 0 ((0 : Int) - 1) ∧
    (0 : Int) ≤ (mark_read ⟨⟨['c'], true, ['S']⟩, 0, 0, 0⟩).1.folderUnread :=
  mark_read_imap_unread_clamped ⟨⟨['c'], true, ['S']⟩, 0, 0, 0⟩ rfl

theorem pathStem_no_occurs (p : Str) (j : Nat) :
    ¬ LeadsTo pat2 ((pathStem p).drop j) := by
  unfold pathStem
  cases hf : strfind pat2 p with
  | none => exact strfind_none (by decide) hf j
  | some off =>
    intro hL
    have hlen := leadsTo_length_le hL
    rw [List.length_drop, List.length_take] at hlen
    have h3 : pat2.length = 3 := by decide
    rw [h3] at hlen
    have hjoff : j < off := by omega
    exact strfind_min hf j hjoff (leadsTo_take_drop hL)

theorem pathStem_no_new {p : Str} (hnew : strfind patNew p = none) (j : Nat) :
    ¬ LeadsTo patNew ((pathStem p).drop j) := by
  unfold pathStem
  cases strfind pat2 p with
  | none => exact strfind_none (by decide) hnew j
  | some off =>
    intro hL
    exact strfind_none (by decide) hnew j (leadsTo_take_drop hL)

/-- C2 counterexample.  The round-trip fails for a local message living in a
`new/` directory: setting the canonical flag set `"S"` and reading back
yields `"NS"`, because `get_flags()` force-adds `'N'` for such paths. -/
theorem set_flags_roundtrip_new_dir_cex :
    get_flags (set_flags ⟨"/md/new/x".toList, false, []⟩ ['S']).1 = ['N', 'S'] ∧
    (['N', 'S'] : Str) ≠ ['S'] := by
  constructor
  · decide
  · decide

/-- C2 (amended).  For every local message whose path does not contain the
segment `"/new/"` and every canonical flag set `F` (strictly sorted,
upper-case letters), `set_flags F` followed by `get_flags()` returns exactly
`F`; the new path is the old stem with `":2," ++ F` appended, and the
underlying file is renamed to it precisely when the path changed. -/
theorem set_flags_get_flags_roundtrip (m : CMsg) (F : Str)
    (him : m.m_imap = false)
    (hF : List.Pairwise (· < ·) F)
    (hFu : ∀ c ∈ F, 'A' ≤ c ∧ c ≤ 'Z')
    (hnew : strfind patNew m.m_path = none) :
    get_flags (set_flags m F).1 = F ∧
    (set_flags m F).1.m_path = pathStem m.m_path ++ pat2 ++ F ∧
    (set_flags m F).2 = (if m.m_path = pathStem m.m_path ++ pat2 ++ F then none
      else some (m.m_path, pathStem m.m_path ++ pat2 ++ F)) := by
  have hcanF : canonize F = F := canonize_eq_self hF
  have hsf : set_flags m F =
      (if m.m_path = pathStem m.m_path ++ pat2 ++ F
       then (m, none)
       else (⟨pathStem m.m_path ++ pat2 ++ F, m.m_imap, m.m_imap_flags⟩,
             some (m.m_path, pathStem m.m_path ++ pat2 ++ F))) := by
    simp only [set_flags, hcanF]
    by_cases he : m.m_path = pathStem m.m_path ++ pat2 ++ F
    · rw [if_neg (fun hne => hne he), if_pos he]
    · rw [if_pos he, if_neg he]
  have hpath : (set_flags m F).1.m_path = pathStem m.m_path ++ pat2 ++ F := by
    rw [hsf]
    by_cases he : m.m_path = pathStem m.m_path ++ pat2 ++ F
    · rw [if_pos he]
      exact he
    · rw [if_neg he]
  have himap : (set_flags m F).1.m_imap = false := by
    rw [hsf]
    by_cases he : m.m_path = pathStem m.m_path ++ pat2 ++ F
    · rw [if_pos he]
      exact him
    · rw [if_neg he]
      exact him
  have hren : (set_flags m F).2
      = (if m.m_path = pathStem m.m_path ++ pat2 ++ F then none
         else some (m.m_path, pathStem m.m_path ++ pat2 ++ F)) := by
    rw [hsf]
    by_cases he : m.m_path = pathStem m.m_path ++ pat2 ++ F
    · rw [if_pos he, if_pos he]
    · rw [if_neg he, if_neg he]
  have hne : pathStem m.m_path ++ pat2 ++ F ≠ [] := by
    intro hcon
    have := congrArg List.length hcon
    simp [pat2] at this
  have hfind : strfind pat2 (pathStem m.m_path ++ pat2 ++ F)
      = some (pathStem m.m_path).length :=
    strfind_pat2_append _ _ (pathStem_no_occurs m.m_path)
  have hchar : ∀ c ∈ patNew, c ∉ pat2 ++ F := by
    intro c hc hcb
    have hcs : c = '/' ∨ c = 'n' ∨ c = 'e' ∨ c = 'w' ∨ c = '/' := by
      simpa [patNew] using hc
    rcases List.mem_append.mp hcb with hc2 | hcF
    · rcases hcs with rfl | rfl | rfl | rfl | rfl <;> exact absurd hc2 (by decide)
    · have hbound := hFu c hcF
      rcases hcs with rfl | rfl | rfl | rfl | rfl <;> exact absurd hbound (by decide)
  have hnodst : strfind patNew (pathStem m.m_path ++ pat2 ++ F) = none := by
    rw [List.append_assoc]
    exact strfind_none_of_no_occurs
      (no_occurs_append (by decide) (pathStem_no_new hnew) hchar)
  have hdrop : (pathStem m.m_path ++ pat2 ++ F).drop ((pathStem m.m_path).length + 3)
      = F := by
    have hl : (pathStem m.m_path ++ pat2).length = (pathStem m.m_path).length + 3 := by
      simp [pat2]
    exact List.drop_left' hl
  refine ⟨?_, hpath, hren⟩
  rw [get_flags, himap]
  simp only [Bool.false_eq_true, if_false]
  rw [hpath, if_neg hne, hfind, hnodst]
  simp only [Option.isSome_none, Bool.false_eq_true, if_false]
  rw [hdrop, hcanF]

/-- C2 witness. -/
theorem set_flags_get_flags_roundtrip_witness :
    get_flags (set_flags ⟨"/home/u/Maildir/cur/m0".toList, false, []⟩ ['R', 'S']).1
        = ['R', 'S'] ∧
    (set_flags ⟨"/home/u/Maildir/cur/m0".toList, false, []⟩ ['R', 'S']).1.m_path
        = pathStem ("/home/u/Maildir/cur/m0".toList) ++ pat2 ++ ['R', 'S'] ∧
    (set_flags ⟨"/home/u/Maildir/cur/m0".toList, false, []⟩ ['R', 'S']).2
        = (if ("/home/u/Maildir/cur/m0".toList : Str)
              = pathStem ("/home/u/Maildir/cur/m0".toList) ++ pat2 ++ ['R', 'S']
           then none
           else some (("/home/u/Maildir/cur/m0".toList : Str),
             pathStem ("/home/u/Maildir/cur/m0".toList) ++ pat2 ++ ['R', 'S'])) :=
  set_flags_get_flags_roundtrip ⟨"/home/u/Maildir/cur/m0".toList, false, []⟩ ['R', 'S']
    rfl (by decide) (by decide) (by decide)

/-- C4 counterexample.  For a path with two `new/` segments the rename only
replaces the first, so the renamed file still lies under `new/` and the
subsequent `get_flags()` still contains `'N'`. -/
theorem mark_read_double_new_cex :
    get_flags (mark_read ⟨⟨"/a/new/new/x".toList, false, []⟩, 0, 0, 0⟩).1.msg
        = ['N', 'S'] ∧
    'N' ∈ get_flags (mark_read ⟨⟨"/a/new/new/x".toList, false, []⟩, 0, 0, 0⟩).1.msg := by
  constructor
  · decide
  · decide

/-- C4 (amended).  For a local message whose path contains `"/new/"` at
first offset `off`, provided the renamed path (first `"/new/"` replaced by
`"/cur/"`) contains neither `"/new/"` nor `":2,"`, `mark_read()` renames the
file into the sibling `cur/` directory and then appends `":2,S"`, and the
subsequent `get_flags()` returns exactly `"S"` (so `'S'` without `'N'`). -/
theorem mark_read_new_to_cur (st : MState) (off : Nat)
    (him : st.msg.m_imap = false)
    (hoff : strfind patNew st.msg.m_path = some off)
    (hn2 : strfind pat2
      (st.msg.m_path.take off ++ patCur ++ st.msg.m_path.drop (off + 5)) = none)
    (hnn : strfind patNew
      (st.msg.m_path.take off ++ patCur ++ st.msg.m_path.drop (off + 5)) = none) :
    (mark_read st).1.msg.m_path
        = st.msg.m_path.take off ++ patCur ++ st.msg.m_path.drop (off + 5)
            ++ pat2 ++ ['S'] ∧
    get_flags (mark_read st).1.msg = ['S'] ∧
    (mark_read st).2
        = [(st.msg.m_path,
            st.msg.m_path.take off ++ patCur ++ st.msg.m_path.drop (off + 5)),
           (st.msg.m_path.take off ++ patCur ++ st.msg.m_path.drop (off + 5),
            st.msg.m_path.take off ++ patCur ++ st.msg.m_path.drop (off + 5)
              ++ pat2 ++ ['S'])] := by
  have hnne : st.msg.m_path.take off ++ patCur ++ st.msg.m_path.drop (off + 5) ≠ [] := by
    intro hcon
    have := congrArg List.length hcon
    simp [patCur] at this
  have hgf1 : get_flags
      (⟨st.msg.m_path.take off ++ patCur ++ st.msg.m_path.drop (off + 5),
        false, st.msg.m_imap_flags⟩ : CMsg) = [] := by
    rw [get_flags]
    simp only [Bool.false_eq_true, if_false]
    rw [if_neg hnne, hn2, hnn]
    simp
    rfl

  have hpstem : pathStem
      (st.msg.m_path.take off ++ patCur ++ st.msg.m_path.drop (off + 5))
      = st.msg.m_path.take off ++ patCur ++ st.msg.m_path.drop (off + 5) := by
    unfold pathStem
    rw [hn2]
  have hneq : st.msg.m_path.take off ++ patCur ++ st.msg.m_path.drop (off + 5)
      ≠ st.msg.m_path.take off ++ patCur ++ st.msg.m_path.drop (off + 5)
          ++ pat2 ++ ['S'] := by
    intro hcon
    have := congrArg List.length hcon
    simp [pat2, patCur] at this
  have hmr : mark_read st =
      ({ st with msg := ⟨st.msg.m_path.take off ++ patCur ++ st.msg.m_path.drop (off + 5)
          ++ pat2 ++ ['S'], st.msg.m_imap, st.msg.m_imap_flags⟩ },
       [(st.msg.m_path,
         st.msg.m_path.take off ++ patCur ++ st.msg.m_path.drop (off + 5)),
        (st.msg.m_path.take off ++ patCur ++ st.msg.m_path.drop (off + 5),
         st.msg.m_path.take off ++ patCur ++ st.msg.m_path.drop (off + 5)
           ++ pat2 ++ ['S'])]) := by
    rw [mark_read]
    simp only [him, Bool.false_eq_true, if_false]
    rw [hoff]
    simp only [add_flag, hgf1, strfind, set_flags, List.nil_append]
    rw [show canonize ['S'] = ['S'] from by decide]
    rw [hpstem, if_pos hneq]
    simp [him]
  have hfind2 : strfind pat2
      (st.msg.m_path.take off ++ patCur ++ st.msg.m_path.drop (off + 5)
        ++ pat2 ++ ['S'])
      = some (st.msg.m_path.take off ++ patCur ++ st.msg.m_path.drop (off + 5)).length :=
    strfind_pat2_append _ _ (strfind_none (by decide) hn2)
  have hnew2 : strfind patNew
      (st.msg.m_path.take off ++ patCur ++ st.msg.m_path.drop (off + 5)
        ++ pat2 ++ ['S']) = none := by
    rw [List.append_assoc
      (st.msg.m_path.take off ++ patCur ++ st.msg.m_path.drop (off + 5))]
    exact strfind_none_of_no_occurs
      (no_occurs_append (by decide) (strfind_none (by decide) hnn) (by decide))
  have hdrop2 : (st.msg.m_path.take off ++ patCur ++ st.msg.m_path.drop (off + 5)
        ++ pat2 ++ ['S']).drop
      ((st.msg.m_path.take off ++ patCur ++ st.msg.m_path.drop (off + 5)).length + 3)
      = ['S'] := by
    have hl : (st.msg.m_path.take off ++ patCur ++ st.msg.m_path.drop (off + 5)
        ++ pat2).length
        = (st.msg.m_path.take off ++ patCur ++ st.msg.m_path.drop (off + 5)).length + 3 := by
      simp [pat2]
      omega
    exact List.drop_left' hl
  have hne3 : st.msg.m_path.take off ++ patCur ++ st.msg.m_path.drop (off + 5)
      ++ pat2 ++ ['S'] ≠ [] := by
    intro hcon
    have := congrArg List.length hcon
    simp [pat2, patCur] at this
  refine ⟨?_, ?_, ?_⟩
  · rw [hmr]
  · rw [hmr]
    rw [get_flags]
    simp only [him, Bool.false_eq_true, if_false]
    rw [if_neg hne3, hfind2, hnew2]
    simp only [Option.isSome_none, Bool.false_eq_true, if_false]
    rw [hdrop2]
    decide
  · rw [hmr]

/-- C4 witness. -/
theorem mark_read_new_to_cur_witness :
    (mark_read ⟨⟨"/md/new/m1".toList, false, []⟩, 0, 0, 0⟩).1.msg.m_path
        = ("/md/new/m1".toList : Str).take 3 ++ patCur
            ++ ("/md/new/m1".toList : Str).drop (3 + 5) ++ pat2 ++ ['S'] ∧
    get_flags (mark_read ⟨⟨"/md/new/m1".toList, false, []⟩, 0, 0, 0⟩).1.msg = ['S'] ∧
    (mark_read ⟨⟨"/md/new/m1".toList, false, []⟩, 0, 0, 0⟩).2
        = [(("/md/new/m1".toList : Str),
            ("/md/new/m1".toList : Str).take 3 ++ patCur
              ++ ("/md/new/m1".toList : Str).drop (3 + 5)),
           (("/md/new/m1".toList : Str).take 3 ++ patCur
              ++ ("/md/new/m1".toList : Str).drop (3 + 5),
            ("/md/new/m1".toList : Str).take 3 ++ patCur
              ++ ("/md/new/m1".toList : Str).drop (3 + 5) ++ pat2 ++ ['S'])] :=
  mark_read_new_to_cur ⟨⟨"/md/new/m1".toList, false, []⟩, 0, 0, 0⟩ 3
    rfl (by decide) (by decide) (by decide)

/-- The state of the recovery scan in `CMessage::parse_message`: the file
offset, the one-byte read buffer `buf[0]`, and the `newline` and `count`
countdowns. -/
structure ScanSt where
  pos : Nat
  buf : Char
  newline : Nat
  count : Nat
deriving Repr, DecidableEq

/-- One iteration body of the recovery scan: `read(fd, buf, 1)` advances the
offset and fills the buffer when bytes remain; at end-of-file it returns 0
and leaves the buffer and offset unchanged.  Then the newline countdown is
decremented when the buffer holds a newline, and `count` is decremented. -/
def scanStep (s : Str) (st : ScanSt) : ScanSt :=
  match s[st.pos]? with
  | some c =>
      { pos := st.pos + 1, buf := c,
        newline := if c = '\n' then st.newline - 1 else st.newline,
        count := st.count - 1 }
  | none =>
      { pos := st.pos, buf := st.buf,
        newline := if st.buf = '\n' then st.newline - 1 else st.newline,
        count := st.count - 1 }

/-- The recovery-scan loop `while ((newline > 0) && (count > 0))`, with fuel
at least `count` so the recursion is structural. -/
def scanLoop (s : Str) : Nat → ScanSt → ScanSt
  | 0, st => st
  | fuel + 1, st =>
      if st.newline > 0 ∧ st.count > 0 then scanLoop s fuel (scanStep s st)
      else st

/-- Initial scan state after `lseek(fd, 0, SEEK_SET)`: offset 0, buffer
`'\0'`, two newlines to skip, 1024 reads allowed. -/
def scanInit : ScanSt := ⟨0, Char.ofNat 0, 2, 1024⟩

/-- The final state of the recovery scan on input `s`. -/
def scanFinal (s : Str) : ScanSt := scanLoop s 1024 scanInit

/-- `CMessage::parse_message`, with the GMime parser abstracted as the
collaborator `parse` acting on the remaining bytes of the stream.  On a
first-parse failure the code rewinds to offset 0, runs the recovery scan,
and retries exactly once from the resulting offset.  The result also
reports the number of parse attempts and the retry offset. -/
def parse_message {α : Type} (parse : Str → Option α) (s : Str) :
    Option α × Nat × Nat :=
  match parse s with
  | some msg => (some msg, 1, 0)
  | none => (parse (s.drop (scanFinal s).pos), 2, (scanFinal s).pos)

/-- Number of `read` calls the recovery scan performed. -/
def scanReads (s : Str) : Nat := 1024 - (scanFinal s).count

/-- Number of newline bytes of the input actually consumed by the scan. -/
def scanNewlinesConsumed (s : Str) : Nat :=
  ((s.take (scanFinal s).pos).filter (· = '\n')).length

/-- C8 counterexample.  On the input `"x\n"` the scan exits after 3 reads
having consumed only one newline of the input: at end-of-file `read`
returns 0 and leaves the stale `'\n'` in the buffer, which is counted a
second time.  So the loop neither passed two newline characters nor ran
into the 1024-read cap, contradicting the claimed exit condition. -/
theorem parse_scan_two_newlines_cex :
    scanNewlinesConsumed ['x', '\n'] = 1 ∧
    scanReads ['x', '\n'] = 3 ∧
    ¬ (scanNewlinesConsumed ['x', '\n'] = 2 ∨ scanReads ['x', '\n'] = 1024) := by
  refine ⟨by decide, by decide, ?_⟩
  decide

theorem scanLoop_pos_le_length (s : Str) (fuel : Nat) (st : ScanSt)
    (h : st.pos ≤ s.length) : (scanLoop s fuel st).pos ≤ s.length := by
  induction fuel generalizing st with
  | zero => exact h
  | succ fuel ih =>
    rw [scanLoop]
    split
    · apply ih
      rw [scanStep]
      cases hc : s[st.pos]? with
      | none =>
        show st.pos ≤ s.length
        exact h
      | some c =>
        show st.pos + 1 ≤ s.length
        have : st.pos < s.length := by
          by_contra hge
          rw [List.getElem?_eq_none (by omega)] at hc
          exact Option.noConfusion hc
        omega
    · exact h

theorem scanLoop_pos_count (s : Str) (fuel : Nat) (st : ScanSt) (b : Nat)
    (h : st.pos + st.count ≤ b) :
    (scanLoop s fuel st).pos + (scanLoop s fuel st).count ≤ b := by
  induction fuel generalizing st with
  | zero => exact h
  | succ fuel ih =>
    rw [scanLoop]
    split
    · rename_i hcond
      apply ih
      rw [scanStep]
      cases hc : s[st.pos]? with
      | none =>
        show st.pos + (st.count - 1) ≤ b
        omega
      | some c =>
        show (st.pos + 1) + (st.count - 1) ≤ b
        omega
    · exact h

theorem scanLoop_exit (s : Str) (fuel : Nat) (st : ScanSt)
    (h : st.count ≤ fuel) :
    (scanLoop s fuel st).newline = 0 ∨ (scanLoop s fuel st).count = 0 := by
  induction fuel generalizing st with
  | zero =>
    rw [scanLoop]
    omega
  | succ fuel ih =>
    rw [scanLoop]
    split
    · rename_i hcond
      apply ih
      rw [scanStep]
      cases hc : s[st.pos]? with
      | none =>
        show st.count - 1 ≤ fuel
        omega
      | some c =>
        show st.count - 1 ≤ fuel
        omega
    · rename_i hcond
      omega

/-- C8 (amended).  When the initial parse fails, the scan restarts from
offset zero and loops while the newline countdown and the 1024-read budget
are both positive, decrementing the countdown whenever the one-byte buffer
holds a newline — at end-of-file `read` leaves the buffer unchanged, so a
stale newline can be counted twice and the loop may exit before either two
input newlines are consumed or the budget is exhausted.  At most 1024
reads occur, the resulting offset is at most `min 1024 |s|`, the loop
always terminates with countdown or budget at zero, and the parse is
retried exactly once from the resulting offset. -/
theorem parse_message_retry_scan {α : Type} (parse : Str → Option α) (s : Str)
    (hfail : parse s = none) :
    parse_message parse s
        = (parse (s.drop (scanFinal s).pos), 2, (scanFinal s).pos) ∧
    (scanFinal s).pos ≤ s.length ∧
    (scanFinal s).pos ≤ 1024 ∧ scanReads s ≤ 1024 ∧
    ((scanFinal s).newline = 0 ∨ (scanFinal s).count = 0) := by
  refine ⟨?_, ?_, ?_, ?_, ?_⟩
  · rw [parse_message, hfail]
  · exact scanLoop_pos_le_length s 1024 scanInit (by simp [scanInit])
  · have := scanLoop_pos_count s 1024 scanInit 1024 (by simp [scanInit])
    rw [scanFinal]
    omega
  · rw [scanReads]
    omega
  · exact scanLoop_exit s 1024 scanInit (by simp [scanInit])

/-- C8 witness: a parse that always fails, on a one-newline input. -/
theorem parse_message_retry_scan_witness :
    parse_message (fun _ : Str => (none : Option Unit)) ['a', '\n', 'b']
        = ((fun _ : Str => (none : Option Unit))
            ((['a', '\n', 'b'] : Str).drop (scanFinal ['a', '\n', 'b']).pos), 2,
           (scanFinal ['a', '\n', 'b']).pos) ∧
    (scanFinal ['a', '\n', 'b']).pos ≤ (['a', '\n', 'b'] : Str).length ∧
    (scanFinal ['a', '\n', 'b']).pos ≤ 1024 ∧ scanReads ['a', '\n', 'b'] ≤ 1024 ∧
    ((scanFinal ['a', '\n', 'b']).newline = 0 ∨ (scanFinal ['a', '\n', 'b']).count = 0) :=
  parse_message_retry_scan (fun _ => none) ['a', '\n', 'b'] rfl

/-- Collaborator interface for C9: what parsing the on-disk file would
produce, indexed by the file's revision (the file content changes when
`add_attachments` rewrites it). -/
structure FileOracle where
  fileHeaders : Nat → List (Str × Str)
  fileParts : Nat → List Nat

/-- The cache-relevant fields of a `CMessage`: the header cache
`m_headers`, the MIME-part cache `m_parts` (part trees abstracted as
opaque ids), and the revision of the underlying file. -/
structure CacheMsg where
  m_headers : List (Str × Str)
  m_parts : List Nat
  fileRev : Nat
deriving Repr, DecidableEq

/-- `CMessage::populate_message`: parse the file, store the headers and
append the root MIME part to `m_parts`. -/
def populate_message (o : FileOracle) (m : CacheMsg) : CacheMsg :=
  { m with m_headers := o.fileHeaders m.fileRev,
           m_parts := m.m_parts ++ o.fileParts m.fileRev }

/-- `CMessage::headers`: populate on first access (empty cache), then serve
from the cache. -/
def headers (o : FileOracle) (m : CacheMsg) : CacheMsg × List (Str × Str) :=
  if m.m_headers.length = 0 then
    let m2 := populate_message o m
    (m2, m2.m_headers)
  else (m, m.m_headers)

/-- `CMessage::get_parts`: populate on first access (empty cache), then
serve from the cache. -/
def get_parts (o : FileOracle) (m : CacheMsg) : CacheMsg × List Nat :=
  if m.m_parts.length = 0 then
    let m2 := populate_message o m
    (m2, m2.m_parts)
  else (m, m.m_parts)

/-- `CMessage::add_attachments`, happy path (the message file and every
attachment open successfully): reparse, wrap the body in `multipart/mixed`,
append the attachments, write to a temp file and copy it over the original
— embedded as a bump of the file revision — then clear the MIME-part cache
when it was populated.  The header cache `m_headers` is not touched. -/
def add_attachments (m : CacheMsg) (attachments : List Str) : CacheMsg :=
  if attachments.length < 1 then m
  else
    let m2 := { m with fileRev := m.fileRev + 1 }
    if m2.m_parts.length > 0 then { m2 with m_parts := [] } else m2

/-- A concrete oracle whose headers and parts differ between revisions. -/
def revOracle : FileOracle :=
  ⟨fun r => [(['s'], if r = 0 then ['a'] else ['b'])], fun r => [r]⟩

/-- C9 counterexample.  After `add_attachments` on a message whose caches
were populated at revision 0, the MIME-part cache is cleared but the header
cache is not: `headers()` still returns the revision-0 headers, not those
of the rewritten file. -/
theorem add_attachments_headers_cex :
    (add_attachments (populate_message revOracle ⟨[], [], 0⟩) [['a']]).m_parts = [] ∧
    (add_attachments (populate_message revOracle ⟨[], [], 0⟩) [['a']]).m_headers
        = [(['s'], ['a'])] ∧
    (add_attachments (populate_message revOracle ⟨[], [], 0⟩) [['a']]).m_headers ≠ [] ∧
    (headers revOracle
        (add_attachments (populate_message revOracle ⟨[], [], 0⟩) [['a']])).2
        ≠ revOracle.fileHeaders
            (add_attachments (populate_message revOracle ⟨[], [], 0⟩) [['a']]).fileRev := by
  refine ⟨by decide, by decide, by decide, by decide⟩

/-- C9 (amended).  `add_attachments` on a nonempty attachment list bumps the
file revision and clears only the MIME-part cache; the header cache is left
untouched, so the next `get_parts()` reparses the rewritten file while a
populated `headers()` keeps serving the stale cached map. -/
theorem add_attachments_cache_effects (o : FileOracle) (m : CacheMsg)
    (atts : List Str) (hatts : atts ≠ []) :
    (add_attachments m atts).m_parts = [] ∧
    (add_attachments m atts).m_headers = m.m_headers ∧
    (add_attachments m atts).fileRev = m.fileRev + 1 ∧
    (get_parts o (add_attachments m atts)).2 = o.fileParts (m.fileRev + 1) ∧
    (m.m_headers ≠ [] → (headers o (add_attachments m atts)).2 = m.m_headers) := by
  have hlen : ¬ atts.length < 1 := by
    cases atts with
    | nil => exact absurd rfl hatts
    | cons a l => simp
  have haa : add_attachments m atts =
      { m with fileRev := m.fileRev + 1, m_parts := [] } := by
    rw [add_attachments, if_neg hlen]
    by_cases hp : m.m_parts.length > 0
    · rw [if_pos hp]
    · rw [if_neg hp]
      have : m.m_parts = [] := by
        cases hmp : m.m_parts with
        | nil => rfl
        | cons x l => rw [hmp] at hp; simp at hp
      rw [this]
  rw [haa]
  refine ⟨rfl, rfl, rfl, ?_, ?_⟩
  · rw [get_parts]
    simp [populate_message]
  · intro hne
    rw [headers]
    rw [if_neg (by simpa using hne)]

/-- C9 witness. -/
theorem add_attachments_cache_effects_witness :
    (add_attachments ⟨[(['s'], ['a'])], [7], 0⟩ [['f']]).m_parts = [] ∧
    (add_attachments ⟨[(['s'], ['a'])], [7], 0⟩ [['f']]).m_headers
        = ([(['s'], ['a'])] : List (Str × Str)) ∧
    (add_attachments ⟨[(['s'], ['a'])], [7], 0⟩ [['f']]).fileRev = 0 + 1 ∧
    (get_parts revOracle (add_attachments ⟨[(['s'], ['a'])], [7], 0⟩ [['f']])).2
        = revOracle.fileParts (0 + 1) ∧
    (([(['s'], ['a'])] : List (Str × Str)) ≠ [] →
      (headers revOracle (add_attachments ⟨[(['s'], ['a'])], [7], 0⟩ [['f']])).2
        = [(['s'], ['a'])]) :=
  add_attachments_cache_effects revOracle ⟨[(['s'], ['a'])], [7], 0⟩ [['f']]
    (by decide)

/-- A message as seen by the Lua threading module: the four headers the
algorithm reads (served by `CMessage::header`, lower-cased lookup, empty
string when absent), the underlying `CMessage` (for `is_new()`), and the
value of `to_ctime()`. -/
structure LMsg where
  msgIdH : Str
  refsH : Str
  replyToH : Str
  subjectH : Str
  cmsg : CMsg
  ctime : Nat
deriving Repr, DecidableEq, Inhabited

/-- `msg:header name` as the threader uses it: `CMessage::header` lower-cases
the name and serves the decoded value, an empty string when absent. -/
def LMsg.header (m : LMsg) (name : String) : Str :=
  let n := name.data.map Char.toLower
  if n = "message-id".data then m.msgIdH
  else if n = "references".data then m.refsH
  else if n = "in-reply-to".data then m.replyToH
  else if n = "subject".data then m.subjectH
  else []

/-- `msg:is_new()` — the `CMessage::is_new` predicate. -/
def LMsg.is_new (m : LMsg) : Bool := Lumail.is_new m.cmsg

/-- Lua `string.match(s, "<([^>]+)>")`: the first position where `'<'` is
followed by a non-empty run of non-`'>'` characters and then `'>'`; returns
the run. -/
def angleToken : Str → Option Str
  | [] => none
  | '<' :: rest =>
      let run := rest.takeWhile (· ≠ '>')
      if !run.isEmpty && !(rest.drop run.length).isEmpty then some run
      else angleToken rest
  | _ :: rest => angleToken rest

/-- Lua `string.gmatch(s, "<([^>]+)>")`: all non-overlapping matches, left
to right.  Structural via fuel; call with `fuel = s.length`. -/
def angleTokens : Nat → Str → List Str
  | 0, _ => []
  | _ + 1, [] => []
  | fuel + 1, '<' :: rest =>
      let run := rest.takeWhile (· ≠ '>')
      if !run.isEmpty && !(rest.drop run.length).isEmpty then
        run :: angleTokens fuel (rest.drop (run.length + 1))
      else angleTokens fuel rest
  | fuel + 1, _ :: rest => angleTokens fuel rest

/-- Lua `string.match(s, ".*<([^>]+)>.*")`: the greedy leading `.*` makes
this capture the token of the last `'<'` that starts a valid
`<...>` token. -/
def lastAngleToken : Str → Option Str
  | [] => none
  | '<' :: rest =>
      let run := rest.takeWhile (· ≠ '>')
      let cand := if !run.isEmpty && !(rest.drop run.length).isEmpty
        then some run else none
      match lastAngleToken rest with
      | some r => some r
      | none => cand
  | _ :: rest => lastAngleToken rest

/-- Lua `%s`: the C `isspace` class. -/
def isLuaSpace (c : Char) : Bool :=
  c = ' ' || c = '\t' || c = '\n' || c = Char.ofNat 11 || c = Char.ofNat 12 || c = '\r'

/-- Does the string start with a `%s` character? -/
def headIsSpace : Str → Bool
  | [] => false
  | c :: _ => isLuaSpace c

/-- Matcher for the Lua pattern `"R[Ee]:%s?"` at the start of the string:
returns the matched length. -/
def matchRe : Str → Option Nat
  | 'R' :: e :: ':' :: rest =>
      if e = 'E' || e = 'e' then some (3 + (if headIsSpace rest then 1 else 0))
      else none
  | _ => none

/-- Matcher for the Lua pattern `"R[Ee]%[%d%]:%s?"` at the start of the
string. -/
def matchReN : Str → Option Nat
  | 'R' :: e :: '[' :: d :: ']' :: ':' :: rest =>
      if (e = 'E' || e = 'e') && d.isDigit then
        some (6 + (if headIsSpace rest then 1 else 0))
      else none
  | _ => none

/-- Matcher for the Lua pattern `"F[wW][dD]:%s?"` at the start of the
string. -/
def matchFwd : Str → Option Nat
  | 'F' :: w :: d :: ':' :: rest =>
      if (w = 'w' || w = 'W') && (d = 'd' || d = 'D') then
        some (4 + (if headIsSpace rest then 1 else 0))
      else none
  | _ => none

/-- Lua `string.gsub(s, pattern, "")` for the patterns above: scan left to
right, delete each match (every matcher consumes at least one character),
copy unmatched characters.  Structural via fuel; call with
`fuel = s.length`. -/
def gsubAll (m : Str → Option Nat) : Nat → Str → Str
  | 0, s => s
  | _ + 1, [] => []
  | fuel + 1, c :: rest =>
      match m (c :: rest) with
      | some n => gsubAll m fuel (rest.drop (n - 1))
      | none => c :: gsubAll m fuel rest

/-- Lua `string.match(s, pattern)` truthiness: does the pattern match
anywhere in the string? -/
def findAny (m : Str → Option Nat) : Str → Bool
  | [] => false
  | c :: rest => (m (c :: rest)).isSome || findAny m rest

/-- A threading `Container`: parent back-reference, optional message,
children list (arena indices), and the `find_subject` memo field. -/
structure Cont where
  parent : Option Nat
  message : Option LMsg
  children : List Nat
  subjectMemo : Option Str
deriving Repr, DecidableEq, Inhabited

/-- The arena holding all containers of one threading pass; containers are
identified by their index. -/
abbrev Arena := List Cont

/-- Read a container (out-of-range reads yield the default container; all
accesses of the algorithm are in range). -/
def getC (a : Arena) (i : Nat) : Cont := a.getD i default

/-- Write a container back. -/
def setC (a : Arena) (i : Nat) (c : Cont) : Arena := a.set i c

/-- `Container.new`: allocate a fresh container with no parent and no
children; returns the extended arena and the new index. -/
def contNew (a : Arena) (msg : Option LMsg) : Arena × Nat :=
  (a ++ [⟨none, msg, [], none⟩], a.length)

/-- Update the `children` field of a container. -/
def setChildren (a : Arena) (i : Nat) (ch : List Nat) : Arena :=
  setC a i ⟨(getC a i).parent, (getC a i).message, ch, (getC a i).subjectMemo⟩

/-- Update the `parent` field of a container. -/
def setParent (a : Arena) (i : Nat) (p : Option Nat) : Arena :=
  setC a i ⟨p, (getC a i).message, (getC a i).children, (getC a i).subjectMemo⟩

/-- Update the `message` field of a container. -/
def setMessage (a : Arena) (i : Nat) (msg : Option LMsg) : Arena :=
  setC a i ⟨(getC a i).parent, msg, (getC a i).children, (getC a i).subjectMemo⟩

/-- Update the `subjectMemo` field of a container. -/
def setMemo (a : Arena) (i : Nat) (s : Str) : Arena :=
  setC a i ⟨(getC a i).parent, (getC a i).message, (getC a i).children, some s⟩

/-- Modelled from the spec: `table.delete` (defined in the project's
`table_utilities` library, which is not under `src/`) removes the first
occurrence of the value from the array. -/
def tableDelete (l : List Nat) (x : Nat) : List Nat :=
  match l with
  | [] => []
  | y :: rest => if y = x then rest else y :: tableDelete rest x

/-- `Container.remove_child`: drop the child from the children list and
clear its parent pointer. -/
def remove_child (a : Arena) (selfI child : Nat) : Arena :=
  setParent (setChildren a selfI (tableDelete (getC a selfI).children child))
    child none

/-- Shared tail of `add_child` and of the `transfer_children` loop body:
point the child's parent at `selfI` and append it to `selfI`'s children. -/
def attachChild (a : Arena) (selfI child : Nat) : Arena :=
  setChildren (setParent a child (some selfI)) selfI
    ((getC (setParent a child (some selfI)) selfI).children ++ [child])

/-- `Container.add_child`: detach the child from its current parent if any,
re-point its parent, and append it to this container's children. -/
def add_child (a : Arena) (selfI child : Nat) : Arena :=
  match (getC a child).parent with
  | some p => attachChild (remove_child a p child) selfI child
  | none => attachChild a selfI child

/-- `Container.has_descandent` (sic): is `contI` reachable from `selfI`?
Structural via fuel; the linking guards keep the forest acyclic, so fuel
`a.length` suffices on every state the algorithm builds. -/
def has_descandent (a : Arena) : Nat → Nat → Nat → Bool
  | 0, _, _ => false
  | fuel + 1, selfI, contI =>
      if selfI = contI then true
      else (getC a selfI).children.any (fun ch => has_descandent a fuel ch contI)

/-- Loop body of `Container.transfer_children`: reverse-iterate the
(snapshotted) children, re-point each parent and append to the new
container's children. -/
def transferGo (newI : Nat) (a : Arena) : List Nat → Arena
  | [] => a
  | ch :: rest => transferGo newI (attachChild a newI ch) rest

/-- `Container.transfer_children`: move all children to `newI` (in reverse
order, as the Lua reverse iteration does) and clear this container's
children list. -/
def transfer_children (a : Arena) (selfI newI : Nat) : Arena :=
  setChildren (transferGo newI a (getC a selfI).children.reverse) selfI []

/-- `Container.has_unread`: does the subtree contain a message for which
`is_new()` holds?  Structural via fuel. -/
def has_unread (a : Arena) : Nat → Nat → Bool
  | 0, _ => false
  | fuel + 1, i =>
      (match (getC a i).message with
       | some m => m.is_new
       | none => false) ||
      (getC a i).children.any (fun ch => has_unread a fuel ch)

/-- Loop body of `Container.prune_empty` over the children, reverse
iteration by index (the Lua code re-reads `self.children[i]` each turn). -/
def pruneKids (prune : Arena → Nat → Arena) (a : Arena) (selfI : Nat) :
    Nat → Arena
  | 0 => a
  | i + 1 =>
      let a2 := match (getC a selfI).children[i]? with
        | some ch => prune a ch
        | none => a
      pruneKids prune a2 selfI i

/-- `Container.prune_empty` (step 4 of the algorithm), with fuel bounding
the recursion depth: recursively prune the children, then delete an empty
childless container, splice out an empty container with children, or — for
an empty root with exactly one child — pull that child's content up into
the root. -/
def prune_empty : Nat → Arena → Nat → Arena
  | 0, a, _ => a
  | fuel + 1, a, selfI =>
      let a2 := pruneKids (prune_empty fuel) a selfI (getC a selfI).children.length
      let c := getC a2 selfI
      match c.message with
      | some _ => a2
      | none =>
        match c.parent with
        | some p =>
            if c.children.length = 0 then remove_child a2 p selfI
            else
              let a3 := transfer_children a2 selfI p
              remove_child a3 p selfI
        | none =>
            if c.children.length = 1 then
              match c.children[0]? with
              | some child =>
                  let a3 := remove_child a2 selfI child
                  let a4 := transfer_children a3 child selfI
                  setMessage a4 selfI (getC a4 child).message
              | none => a2
            else a2

/-- `Container.find_subject`, including its memoisation in the container:
the subject of the container's message, or of its first child's message.
(When neither exists the Lua code would fault; those states are unreachable
in the algorithm and modelled as the empty subject.) -/
def find_subject (a : Arena) (selfI : Nat) : Arena × Str :=
  match (getC a selfI).subjectMemo with
  | some s => (a, s)
  | none =>
      let subject := match (getC a selfI).message with
        | some m => m.header "Subject"
        | none =>
            match (getC a selfI).children[0]? with
            | some ch =>
                match (getC a ch).message with
                | some m => m.header "Subject"
                | none => []
            | none => []
      (setMemo a selfI subject, subject)

/-- `Container.get_normalized_subject`: strip every `"Re:"`, `"Re[n]:"` and
`"Fwd:"` occurrence (each with an optional following space) from the
subject. -/
def get_normalized_subject (a : Arena) (selfI : Nat) : Arena × Str :=
  let as1 := find_subject a selfI
  let s1 := gsubAll matchRe as1.2.length as1.2
  let s2 := gsubAll matchReN s1.length s1
  let s3 := gsubAll matchFwd s2.length s2
  (as1.1, s3)

/-- `Container.is_reply`: the subject matches `"R[eE]:%s?"` or
`"R[eE]%[%d%]:%s?"` somewhere. -/
def is_reply (a : Arena) (selfI : Nat) : Arena × Bool :=
  let as1 := find_subject a selfI
  (as1.1, findAny matchRe as1.2 || findAny matchReN as1.2)

/-- `Container.get_references`: the angle-bracket tokens of the
`References` header, plus the last token of `In-Reply-To` when it is not
already the last entry. -/
def get_references (a : Arena) (i : Nat) : List Str :=
  match (getC a i).message with
  | none => []
  | some m =>
      let refs := angleTokens (m.header "References").length (m.header "References")
      let rep := lastAngleToken (m.header "In-Reply-To")
      if refs.getLast? ≠ rep then refs ++ rep.toList else refs

/-- The threading state during step 1: the arena, the `id_table`
(association list in insertion order — Lua's `pairs` iteration order over
it is unspecified, insertion order is this model's choice), the root list,
and the `Threader.overridden` record. -/
structure TState where
  arena : Arena
  idTable : List (Str × Nat)
  roots : List Nat
  overridden : List LMsg
deriving Repr, DecidableEq, Inhabited

/-- Association-list lookup (`id_table[msgid]`). -/
def alGet (t : List (Str × Nat)) (k : Str) : Option Nat :=
  match t with
  | [] => none
  | kv :: rest => if kv.1 = k then some kv.2 else alGet rest k

/-- Association-list update in place, appending for a fresh key
(`subject_table[subject] = v`). -/
def alSet (t : List (Str × Nat)) (k : Str) (v : Nat) : List (Str × Nat) :=
  match t with
  | [] => [(k, v)]
  | kv :: rest => if kv.1 = k then (k, v) :: rest else kv :: alSet rest k v

/-- Step 1.B, id resolution: fetch the container of a referenced id, or
allocate an empty placeholder and record it in the `id_table`. -/
def lookupOrAlloc (st : TState) (ref : Str) : TState × Nat :=
  match alGet st.idTable ref with
  | some c => (st, c)
  | none =>
      let an := contNew st.arena none
      ({ st with arena := an.1, idTable := st.idTable ++ [(ref, an.2)] }, an.2)

/-- Step 1.B, the guarded link of one consecutive pair: link `prev → cur`
unless `cur` already has a parent or `prev` is reachable from `cur` (which
would close a cycle). -/
def linkPair (a : Arena) : Option Nat → Nat → Arena
  | some p, cur =>
      if (getC a cur).parent = none && !(has_descandent a a.length cur p)
      then add_child a p cur else a
  | none, _ => a

/-- Step 1.B: walk the reference chain, creating placeholder containers for
unseen ids and linking consecutive pairs under the guards of `linkPair`.
Returns the state and the last container of the chain (`prev`). -/
def linkRefs (st : TState) (prev : Option Nat) : List Str → TState × Option Nat
  | [] => (st, prev)
  | ref :: rest =>
      let act := lookupOrAlloc st ref
      linkRefs { act.1 with arena := linkPair act.1.arena prev act.2 } (some act.2) rest

/-- Step 1.A for a message with an id: fetch the id's container and
override its message (recording a lost message in `Threader.overridden`),
or create a fresh container for it. -/
def registerMsg (st : TState) (msg : LMsg) (msgid : Str) : TState × Nat :=
  match alGet st.idTable msgid with
  | none =>
      let an := contNew st.arena (some msg)
      ({ st with arena := an.1, idTable := st.idTable ++ [(msgid, an.2)] }, an.2)
  | some c =>
      let ov := match (getC st.arena c).message with
        | some old => st.overridden ++ [old]
        | none => st.overridden
      ({ st with arena := setMessage st.arena c (some msg), overridden := ov }, c)

/-- Step 1.C: link the message's container under the chain's last container
(when there is one) unless the link would close a cycle.  Note: unlike the
1.B guard, there is no `parent = none` check here, so the message's
container can be re-parented. -/
def linkSelf (st : TState) (prev : Option Nat) (par : Nat) : TState :=
  match prev with
  | some p =>
      if !(has_descandent st.arena st.arena.length par p)
      then { st with arena := add_child st.arena p par } else st
  | none => st

/-- Step 1 per-message body: resolve the Message-ID (no id ⇒ isolated
root), create or override the message's container, link the reference
chain (1.B), and link the message's container (1.C). -/
def processMsg (st : TState) (msg : LMsg) : TState :=
  match angleToken (msg.header "Message-ID") with
  | none =>
      let an := contNew st.arena (some msg)
      { st with arena := an.1, roots := st.roots ++ [an.2] }
  | some msgid =>
      let rp := registerMsg st msg msgid
      let lp := linkRefs rp.1 none (get_references rp.1.arena rp.2)
      linkSelf lp.1 lp.2 rp.2

/-- Step 1 over the whole (ordered) message list. -/
def step1 (msgs : List LMsg) : TState :=
  msgs.foldl processMsg ⟨[], [], [], []⟩

/-- Step 2: append the parentless `id_table` containers to the root set. -/
def step2 (st : TState) : TState :=
  { st with
    roots := st.roots ++ st.idTable.filterMap
        (fun kv => if (getC st.arena kv.2).parent = none then some kv.2 else none) }

/-- Step 4: prune empty containers under every root. -/
def step4 (st : TState) : TState :=
  { st with arena := st.roots.foldl (fun a r => prune_empty (a.length + 1) a r) st.arena }

/-- Step 5.B: fill the subject table (first root with a given normalized
subject wins, except that an empty container replaces a non-empty one);
subject-less roots are collected separately. -/
def step5B (a : Arena) (roots : List Nat) :
    Arena × List (Str × Nat) × List Nat :=
  roots.foldl
    (fun acc root =>
      let asub := get_normalized_subject acc.1 root
      let a2 := asub.1
      let subject := asub.2
      if subject = [] then (a2, acc.2.1, acc.2.2 ++ [root])
      else
        match alGet acc.2.1 subject with
        | none => (a2, alSet acc.2.1 subject root, acc.2.2)
        | some t =>
            if (getC a2 t).message.isSome && (getC a2 root).message = none
            then (a2, alSet acc.2.1 subject root, acc.2.2)
            else (a2, acc.2.1, acc.2.2))
    (a, [], [])

/-- Step 5.C: group the roots by normalized subject — merge empty
containers, keep an empty container above a non-empty one, make a reply the
child of a non-reply, and otherwise synthesise a fresh empty parent over
both. -/
def step5C (a : Arena) (roots : List Nat) (subT : List (Str × Nat)) :
    Arena × List (Str × Nat) :=
  roots.foldl
    (fun acc root =>
      let asub := get_normalized_subject acc.1 root
      let a2 := asub.1
      let subject := asub.2
      match alGet acc.2 subject with
      | none => (a2, acc.2)
      | some target =>
          if target = root then (a2, acc.2)
          else if (getC a2 target).message = none
              && (getC a2 root).message = none then
            (transfer_children a2 root target, acc.2)
          else if (getC a2 target).message = none then
            (add_child a2 target root, acc.2)
          else if (getC a2 root).message = none then
            (add_child a2 root target, alSet acc.2 subject root)
          else
            let ar := is_reply a2 root
            let at2 := is_reply ar.1 target
            let a3 := at2.1
            if ar.2 && !at2.2 then (add_child a3 target root, acc.2)
            else if !ar.2 && at2.2 then
              (add_child a3 root target, alSet acc.2 subject root)
            else
              let an := contNew a3 none
              let a4 := add_child an.1 an.2 root
              let a5 := add_child a4 an.2 target
              (a5, alSet acc.2 subject an.2))
    (a, subT)

/-- The deviation step: replace an empty subject-group root by its
chronologically oldest child when that child is not a reply. -/
def promoteStep (a : Arena) (kv : Str × Nat) : Arena × (Str × Nat) :=
  let r := kv.2
  if (getC a r).message.isSome then (a, kv)
  else
    match (getC a r).children with
    | [] => (a, kv)
    | c0 :: restCh =>
        let oldest := restCh.foldl
          (fun best c =>
            let bestT := match (getC a best).message with
              | some m => m.ctime
              | none => 0
            let cT := match (getC a c).message with
              | some m => m.ctime
              | none => 0
            if cT < bestT then c else best) c0
        let arep := is_reply a oldest
        if arep.2 then (arep.1, kv)
        else
          let a2 := remove_child arep.1 r oldest
          let a3 := transfer_children a2 r oldest
          (a3, (kv.1, oldest))

/-- The deviation step applied to every subject-table entry. -/
def promoteEmptyRoots (a : Arena) (subT : List (Str × Nat)) :
    Arena × List (Str × Nat) :=
  subT.foldl
    (fun acc kv =>
      let akv := promoteStep acc.1 kv
      (akv.1, acc.2 ++ [akv.2]))
    (a, [])

/-- `Threader.thread`: the full threading pass; returns the final arena and
the final root list (subject-less roots first, then the subject-table
roots, as the final merge loop does). -/
def thread (msgs : List LMsg) : Arena × List Nat :=
  let st := step2 (step1 msgs)
  let st2 := step4 st
  let bres := step5B st2.arena st2.roots
  let cres := step5C bres.1 st2.roots bres.2.1
  let pres := promoteEmptyRoots cres.1 cres.2
  (pres.1, bres.2.2 ++ pres.2.map (·.2))

/-- A rose tree of messages, read back from the arena to state theorems
about the produced forest. -/
inductive MTree where
  | node : Option LMsg → List MTree → MTree

/-- Read the tree below a container out of the arena (fuel-bounded). -/
def toTree (a : Arena) : Nat → Nat → MTree
  | 0, i => .node (getC a i).message []
  | fuel + 1, i =>
      .node (getC a i).message ((getC a i).children.map (toTree a fuel))

/-- The forest `Threader.thread` produces, as rose trees of messages. -/
def threadForest (msgs : List LMsg) : List MTree :=
  let ar := thread msgs
  ar.2.map (toTree ar.1 ar.1.length)

/-- `Container.cmp_wrapper`: apply a message comparator to two containers'
messages (the Lua code passes `nil` for empty containers and "will fail";
the model passes the default message). -/
def cmp_wrapper (cmp : LMsg → LMsg → Bool) (a : Arena) (x y : Nat) : Bool :=
  cmp ((getC a x).message.getD default) ((getC a y).message.getD default)

/-- Insertion step for the model of `table.sort` (which only promises a
sorted permutation; ties are in unspecified order, and no settled claim
depends on tie order). -/
def insSorted (lt : Nat → Nat → Bool) (x : Nat) : List Nat → List Nat
  | [] => [x]
  | y :: rest => if lt x y then x :: y :: rest else y :: insSorted lt x rest

/-- Model of Lua `table.sort` with comparator `lt`. -/
def tableSort (lt : Nat → Nat → Bool) : List Nat → List Nat
  | [] => []
  | x :: rest => insSorted lt x (tableSort lt rest)

/-- `Container.sort`: recursively sort every container's children with the
wrapped comparator (fuel-bounded recursion over the tree). -/
def contSort (cmp : LMsg → LMsg → Bool) : Nat → Arena → Nat → Arena
  | 0, a, _ => a
  | fuel + 1, a, i =>
      let a2 := (getC a i).children.foldl (fun a ch => contSort cmp fuel a ch) a
      setChildren a2 i (tableSort (cmp_wrapper cmp a2) (getC a2 i).children)

/-- The root comparator wrapper of `Threader.sort`: an empty root is
represented by its first child. -/
def rootCmp (cmp : LMsg → LMsg → Bool) (a : Arena) (x y : Nat) : Bool :=
  let x2 := if (getC a x).message.isSome then x else (getC a x).children.getD 0 0
  let y2 := if (getC a y).message.isSome then y else (getC a y).children.getD 0 0
  cmp_wrapper cmp a x2 y2

/-- The `promote_unread` loop of `Threader.sort`.  The Lua code executes
`table.insert(roots, table.remove(i))` — passing the numeric index `i`
where `table.remove` expects the table — so the first root (scanning from
the end) whose subtree holds an unread message raises a Lua error. -/
def promoteUnreadLoop (a : Arena) (roots : List Nat) :
    Nat → Except String (List Nat)
  | 0 => .ok roots
  | i + 1 =>
      if has_unread a a.length (roots.getD i 0) then
        .error "bad argument #1 to remove (table expected, got number)"
      else promoteUnreadLoop a roots i

/-- `Threader.sort`: sort every thread recursively, sort the roots with the
wrapped comparator, and, when `promote_unread` is set, run the promote
loop. -/
def threaderSort (cmp : LMsg → LMsg → Bool) (promote : Bool) (a : Arena)
    (roots : List Nat) : Except String (Arena × List Nat) :=
  let a2 := roots.foldl (fun a r => contSort cmp (a.length + 1) a r) a
  let roots2 := tableSort (rootCmp cmp a2) roots
  if promote then
    (promoteUnreadLoop a2 roots2 roots2.length).map (fun rs => (a2, rs))
  else .ok (a2, roots2)

theorem getC_out {a : Arena} {c : Nat} (h : a.length ≤ c) : getC a c = default := by
  rw [getC, List.getD_eq_getElem?_getD, List.getElem?_eq_none h]
  rfl

theorem getC_append {a : Arena} {x : Cont} {c : Nat} (h : c < a.length) :
    getC (a ++ [x]) c = getC a c := by
  rw [getC, getC, List.getD_eq_getElem?_getD, List.getD_eq_getElem?_getD,
    List.getElem?_append_left h]

theorem getC_append_self (a : Arena) (x : Cont) :
    getC (a ++ [x]) a.length = x := by
  rw [getC, List.getD_eq_getElem?_getD,
    List.getElem?_append_right (Nat.le_refl _), Nat.sub_self]
  rfl

theorem getC_setC_ne {a : Arena} {i c : Nat} {x : Cont} (h : c ≠ i) :
    getC (setC a i x) c = getC a c := by
  rw [getC, setC, getC, List.getD_eq_getElem?_getD, List.getD_eq_getElem?_getD,
    List.getElem?_set_ne (Ne.symm h)]

theorem setC_length (a : Arena) (i : Nat) (x : Cont) :
    (setC a i x).length = a.length := by
  rw [setC, List.length_set]

theorem getC_setC_keep {a : Arena} {i : Nat} {x : Cont} (c : Nat)
    (hpar : x.parent = (getC a i).parent) (hmsg : x.message = (getC a i).message) :
    (getC (setC a i x) c).parent = (getC a c).parent ∧
    (getC (setC a i x) c).message = (getC a c).message := by
  by_cases hci : c = i
  · subst hci
    by_cases hlt : c < a.length
    · rw [getC, setC, List.getD_eq_getElem?_getD, List.getElem?_set_self hlt]
      exact ⟨hpar, hmsg⟩
    · rw [setC, List.set_eq_of_length_le (by omega)]
      exact ⟨rfl, rfl⟩
  · rw [getC_setC_ne hci]
    exact ⟨rfl, rfl⟩

theorem getC_setChildren_keep (a : Arena) (i : Nat) (ch : List Nat) (c : Nat) :
    (getC (setChildren a i ch) c).parent = (getC a c).parent ∧
    (getC (setChildren a i ch) c).message = (getC a c).message :=
  getC_setC_keep c rfl rfl

theorem getC_setMemo_keep (a : Arena) (i : Nat) (s : Str) (c : Nat) :
    (getC (setMemo a i s) c).parent = (getC a c).parent ∧
    (getC (setMemo a i s) c).message = (getC a c).message :=
  getC_setC_keep c rfl rfl

theorem getC_setParent_ne {a : Arena} {i : Nat} {p : Option Nat} {c : Nat}
    (h : c ≠ i) : getC (setParent a i p) c = getC a c :=
  getC_setC_ne h

theorem getC_setMessage_ne {a : Arena} {i : Nat} {msg : Option LMsg} {c : Nat}
    (h : c ≠ i) : getC (setMessage a i msg) c = getC a c :=
  getC_setC_ne h

theorem getC_setC_parent_only {a : Arena} {i : Nat} {x : Cont} (c : Nat)
    (hpar : x.parent = (getC a i).parent) :
    (getC (setC a i x) c).parent = (getC a c).parent := by
  by_cases hci : c = i
  · subst hci
    by_cases hlt : c < a.length
    · rw [getC, setC, List.getD_eq_getElem?_getD, List.getElem?_set_self hlt]
      exact hpar
    · rw [setC, List.set_eq_of_length_le (by omega)]
  · rw [getC_setC_ne hci]

theorem getC_setMessage_parent (a : Arena) (i : Nat) (msg : Option LMsg) (c : Nat) :
    (getC (setMessage a i msg) c).parent = (getC a c).parent := by
  rw [setMessage]
  exact getC_setC_parent_only c rfl

theorem setChildren_length (a : Arena) (i : Nat) (ch : List Nat) :
    (setChildren a i ch).length = a.length := setC_length ..

theorem setParent_length (a : Arena) (i : Nat) (p : Option Nat) :
    (setParent a i p).length = a.length := setC_length ..

theorem setMessage_length (a : Arena) (i : Nat) (msg : Option LMsg) :
    (setMessage a i msg).length = a.length := setC_length ..

theorem remove_child_keep {a : Arena} {p child : Nat} (c : Nat) (h : c ≠ child) :
    (getC (remove_child a p child) c).parent = (getC a c).parent ∧
    (getC (remove_child a p child) c).message = (getC a c).message := by
  rw [remove_child, getC_setParent_ne h]
  exact getC_setChildren_keep ..

theorem remove_child_length (a : Arena) (p child : Nat) :
    (remove_child a p child).length = a.length := by
  rw [remove_child, setParent_length, setChildren_length]

theorem attachChild_keep {a : Arena} {p child : Nat} (c : Nat) (h : c ≠ child) :
    (getC (attachChild a p child) c).parent = (getC a c).parent ∧
    (getC (attachChild a p child) c).message = (getC a c).message := by
  rw [attachChild]
  have h2 := getC_setChildren_keep (setParent a child (some p)) p
    ((getC (setParent a child (some p)) p).children ++ [child]) c
  rw [getC_setParent_ne h] at h2
  exact h2

theorem attachChild_length (a : Arena) (p child : Nat) :
    (attachChild a p child).length = a.length := by
  rw [attachChild, setChildren_length, setParent_length]

theorem add_child_keep {a : Arena} {p child : Nat} (c : Nat) (h : c ≠ child) :
    (getC (add_child a p child) c).parent = (getC a c).parent ∧
    (getC (add_child a p child) c).message = (getC a c).message := by
  rw [add_child]
  cases hop : (getC a child).parent with
  | none => exact attachChild_keep c h
  | some op =>
    have h1 := remove_child_keep (a := a) (p := op) (c := c) (h := h)
    have h2 : (getC (attachChild (remove_child a op child) p child) c).parent
          = (getC (remove_child a op child) c).parent ∧
        (getC (attachChild (remove_child a op child) p child) c).message
          = (getC (remove_child a op child) c).message :=
      attachChild_keep c h
    exact ⟨h2.1.trans h1.1, h2.2.trans h1.2⟩

theorem add_child_length (a : Arena) (p child : Nat) :
    (add_child a p child).length = a.length := by
  rw [add_child]
  cases hop : (getC a child).parent with
  | none => rw [attachChild_length]
  | some op => rw [attachChild_length, remove_child_length]

theorem linkPair_keep {a : Arena} {prev : Option Nat} {cur : Nat} (c : Nat)
    (h : c ≠ cur) :
    (getC (linkPair a prev cur) c).parent = (getC a c).parent ∧
    (getC (linkPair a prev cur) c).message = (getC a c).message := by
  cases prev with
  | none => rw [linkPair]; exact ⟨rfl, rfl⟩
  | some p =>
    rw [linkPair]
    split
    · exact add_child_keep c h
    · exact ⟨rfl, rfl⟩

theorem linkPair_length (a : Arena) (prev : Option Nat) (cur : Nat) :
    (linkPair a prev cur).length = a.length := by
  cases prev with
  | none => rw [linkPair]
  | some p =>
    rw [linkPair]
    split
    · exact add_child_length a p cur
    · rfl

theorem alGet_mem {t : List (Str × Nat)} {k : Str} {v : Nat}
    (h : alGet t k = some v) : (k, v) ∈ t := by
  induction t with
  | nil => simp [alGet] at h
  | cons kv rest ih =>
    rw [alGet] at h
    split at h
    · rename_i he
      obtain ⟨k1, v1⟩ := kv
      cases h
      simp only at he
      rw [he]
      exact List.mem_cons_self _ _
    · exact List.mem_cons_of_mem _ (ih h)

theorem lookupOrAlloc_cases (st : TState) (ref : Str) :
    (lookupOrAlloc st ref).1.roots = st.roots ∧
    (((lookupOrAlloc st ref).1.arena = st.arena ∧
        (lookupOrAlloc st ref).1.idTable = st.idTable ∧
        (ref, (lookupOrAlloc st ref).2) ∈ st.idTable) ∨
      ((lookupOrAlloc st ref).1.arena = st.arena ++ [⟨none, none, [], none⟩] ∧
        (lookupOrAlloc st ref).1.idTable = st.idTable ++ [(ref, st.arena.length)] ∧
        (lookupOrAlloc st ref).2 = st.arena.length)) := by
  rw [lookupOrAlloc]
  cases hal : alGet st.idTable ref with
  | some c => exact ⟨rfl, Or.inl ⟨rfl, rfl, alGet_mem hal⟩⟩
  | none => exact ⟨rfl, Or.inr ⟨rfl, rfl, rfl⟩⟩

theorem linkRefs_roots (refs : List Str) (st : TState) (prev : Option Nat) :
    (linkRefs st prev refs).1.roots = st.roots := by
  induction refs generalizing st prev with
  | nil => rw [linkRefs]
  | cons ref rest ih =>
    rw [linkRefs]
    rw [ih]
    exact (lookupOrAlloc_cases st ref).1

theorem linkRefs_idTable_mono (refs : List Str) (st : TState) (prev : Option Nat)
    (kv : Str × Nat) (h : kv ∈ st.idTable) :
    kv ∈ (linkRefs st prev refs).1.idTable := by
  induction refs generalizing st prev with
  | nil => rw [linkRefs]; exact h
  | cons ref rest ih =>
    rw [linkRefs]
    apply ih
    rcases (lookupOrAlloc_cases st ref).2 with ⟨_, hid, _⟩ | ⟨_, hid, _⟩ <;> rw [hid]
    · exact h
    · exact List.mem_append_left _ h

theorem linkRefs_idBound (refs : List Str) (st : TState) (prev : Option Nat)
    (hb : ∀ kv ∈ st.idTable, kv.2 < st.arena.length) :
    ∀ kv ∈ (linkRefs st prev refs).1.idTable,
      kv.2 < (linkRefs st prev refs).1.arena.length := by
  induction refs generalizing st prev with
  | nil => rw [linkRefs]; exact hb
  | cons ref rest ih =>
    rw [linkRefs]
    apply ih
    intro kv hkv
    rw [linkPair_length]
    rcases (lookupOrAlloc_cases st ref).2 with ⟨ha, hid, _⟩ | ⟨ha, hid, _⟩ <;>
      rw [ha] <;> rw [hid] at hkv
    · exact hb kv hkv
    · rcases List.mem_append.mp hkv with h1 | h2
      · have := hb kv h1
        simp only [List.length_append, List.length_cons, List.length_nil]
        omega
      · simp only [List.mem_singleton] at h2
        rw [h2]
        simp only [List.length_append, List.length_cons, List.length_nil]
        omega

theorem linkRefs_keep (refs : List Str) (st : TState) (prev : Option Nat)
    (c : Nat) (hc : c < st.arena.length)
    (hni : ∀ kv ∈ st.idTable, kv.2 ≠ c) :
    c < (linkRefs st prev refs).1.arena.length ∧
    (getC (linkRefs st prev refs).1.arena c).parent = (getC st.arena c).parent ∧
    (getC (linkRefs st prev refs).1.arena c).message = (getC st.arena c).message ∧
    (∀ kv ∈ (linkRefs st prev refs).1.idTable, kv.2 ≠ c) := by
  induction refs generalizing st prev with
  | nil => rw [linkRefs]; exact ⟨hc, rfl, rfl, hni⟩
  | cons ref rest ih =>
    rw [linkRefs]
    have hcur_ne : (lookupOrAlloc st ref).2 ≠ c := by
      rcases (lookupOrAlloc_cases st ref).2 with ⟨_, _, hmem⟩ | ⟨_, _, hval⟩
      · exact hni _ hmem
      · rw [hval]; omega
    have hlen1 : c < (lookupOrAlloc st ref).1.arena.length := by
      rcases (lookupOrAlloc_cases st ref).2 with ⟨ha, _, _⟩ | ⟨ha, _, _⟩ <;> rw [ha]
      · exact hc
      · simp only [List.length_append, List.length_cons, List.length_nil]
        omega
    have hkeep1 : getC (lookupOrAlloc st ref).1.arena c = getC st.arena c := by
      rcases (lookupOrAlloc_cases st ref).2 with ⟨ha, _, _⟩ | ⟨ha, _, _⟩ <;> rw [ha]
      exact getC_append hc
    have hni1 : ∀ kv ∈ (lookupOrAlloc st ref).1.idTable, kv.2 ≠ c := by
      rcases (lookupOrAlloc_cases st ref).2 with ⟨_, hid, _⟩ | ⟨_, hid, _⟩ <;> rw [hid]
      · exact hni
      · intro kv hkv
        rcases List.mem_append.mp hkv with h1 | h2
        · exact hni kv h1
        · simp only [List.mem_singleton] at h2
          rw [h2]
          intro hcon
          simp only at hcon
          omega
    have hlp : (getC (linkPair (lookupOrAlloc st ref).1.arena prev
            (lookupOrAlloc st ref).2) c).parent
          = (getC (lookupOrAlloc st ref).1.arena c).parent ∧
        (getC (linkPair (lookupOrAlloc st ref).1.arena prev
            (lookupOrAlloc st ref).2) c).message
          = (getC (lookupOrAlloc st ref).1.arena c).message :=
      linkPair_keep c (fun he => hcur_ne he.symm)
    have hres := ih { (lookupOrAlloc st ref).1 with
        arena := linkPair (lookupOrAlloc st ref).1.arena prev (lookupOrAlloc st ref).2 }
      (some (lookupOrAlloc st ref).2)
      (by simpa [linkPair_length] using hlen1) hni1
    refine ⟨hres.1, ?_, ?_, hres.2.2.2⟩
    · rw [hres.2.1]
      simp only []
      rw [hlp.1, hkeep1]
    · rw [hres.2.2.1]
      simp only []
      rw [hlp.2, hkeep1]

theorem linkRefs_first_link_wins (refs : List Str) (st : TState)
    (prev : Option Nat) (c p0 : Nat)
    (hpar : (getC st.arena c).parent = some p0) :
    (getC (linkRefs st prev refs).1.arena c).parent = some p0 := by
  induction refs generalizing st prev with
  | nil => rw [linkRefs]; exact hpar
  | cons ref rest ih =>
    rw [linkRefs]
    have hc : c < st.arena.length := by
      by_contra hge
      rw [getC_out (by omega)] at hpar
      exact Option.noConfusion hpar
    have hkeep1 : getC (lookupOrAlloc st ref).1.arena c = getC st.arena c := by
      rcases (lookupOrAlloc_cases st ref).2 with ⟨ha, _, _⟩ | ⟨ha, _, _⟩ <;> rw [ha]
      exact getC_append hc
    apply ih
    simp only []
    by_cases hcc : c = (lookupOrAlloc st ref).2
    · cases prev with
      | none => rw [linkPair, hkeep1]; exact hpar
      | some p =>
        rw [← hcc, linkPair]
        have hcond : (decide ((getC (lookupOrAlloc st ref).1.arena c).parent = none))
            = false := by
          rw [hkeep1, hpar]
          rfl
        rw [hcond]
        simp only [Bool.false_and, Bool.false_eq_true, if_false]
        rw [hkeep1]
        exact hpar
    · rw [(linkPair_keep c hcc).1, hkeep1]
      exact hpar

/-- Every `id_table` value indexes into the arena. -/
def IdBound (st : TState) : Prop := ∀ kv ∈ st.idTable, kv.2 < st.arena.length

theorem registerMsg_cases (st : TState) (msg : LMsg) (msgid : Str) :
    (registerMsg st msg msgid).1.roots = st.roots ∧
    (((registerMsg st msg msgid).1.arena
          = setMessage st.arena (registerMsg st msg msgid).2 (some msg) ∧
        (registerMsg st msg msgid).1.idTable = st.idTable ∧
        (msgid, (registerMsg st msg msgid).2) ∈ st.idTable) ∨
      ((registerMsg st msg msgid).1.arena
          = st.arena ++ [⟨none, some msg, [], none⟩] ∧
        (registerMsg st msg msgid).1.idTable
          = st.idTable ++ [(msgid, st.arena.length)] ∧
        (registerMsg st msg msgid).2 = st.arena.length)) := by
  rw [registerMsg]
  cases hal : alGet st.idTable msgid with
  | some c => exact ⟨rfl, Or.inl ⟨rfl, rfl, alGet_mem hal⟩⟩
  | none => exact ⟨rfl, Or.inr ⟨rfl, rfl, rfl⟩⟩

theorem linkSelf_roots (st : TState) (prev : Option Nat) (par : Nat) :
    (linkSelf st prev par).roots = st.roots := by
  cases prev with
  | none => rw [linkSelf]
  | some p =>
    rw [linkSelf]
    split <;> rfl

theorem linkSelf_idTable (st : TState) (prev : Option Nat) (par : Nat) :
    (linkSelf st prev par).idTable = st.idTable := by
  cases prev with
  | none => rw [linkSelf]
  | some p =>
    rw [linkSelf]
    split <;> rfl

theorem linkSelf_length (st : TState) (prev : Option Nat) (par : Nat) :
    (linkSelf st prev par).arena.length = st.arena.length := by
  cases prev with
  | none => rw [linkSelf]
  | some p =>
    rw [linkSelf]
    split
    · exact add_child_length ..
    · rfl

theorem linkSelf_keep (st : TState) (prev : Option Nat) (par : Nat) (c : Nat)
    (h : c ≠ par) :
    (getC (linkSelf st prev par).arena c).parent = (getC st.arena c).parent ∧
    (getC (linkSelf st prev par).arena c).message = (getC st.arena c).message := by
  cases prev with
  | none => rw [linkSelf]; exact ⟨rfl, rfl⟩
  | some p =>
    rw [linkSelf]
    split
    · exact add_child_keep c h
    · exact ⟨rfl, rfl⟩

theorem processMsg_keep (st : TState) (msg : LMsg) (c : Nat)
    (hb : IdBound st) (hc : c < st.arena.length)
    (hni : ∀ kv ∈ st.idTable, kv.2 ≠ c) :
    c < (processMsg st msg).arena.length ∧
    (getC (processMsg st msg).arena c).parent = (getC st.arena c).parent ∧
    (getC (processMsg st msg).arena c).message = (getC st.arena c).message ∧
    (∀ kv ∈ (processMsg st msg).idTable, kv.2 ≠ c) := by
  rw [processMsg]
  cases hmid : angleToken (msg.header "Message-ID") with
  | none =>
    refine ⟨?_, ?_, ?_, ?_⟩
    · show c < (st.arena ++ [(⟨none, some msg, [], none⟩ : Cont)]).length
      rw [List.length_append]
      omega
    · show (getC (st.arena ++ [(⟨none, some msg, [], none⟩ : Cont)]) c).parent = _
      rw [getC_append hc]
    · show (getC (st.arena ++ [(⟨none, some msg, [], none⟩ : Cont)]) c).message = _
      rw [getC_append hc]
    · exact hni
  | some msgid =>
    have hreg := registerMsg_cases st msg msgid
    have hpar_ne : (registerMsg st msg msgid).2 ≠ c := by
      rcases hreg.2 with ⟨_, _, hmem⟩ | ⟨_, _, hval⟩
      · exact hni _ hmem
      · rw [hval]; omega
    have hc1 : c < (registerMsg st msg msgid).1.arena.length := by
      rcases hreg.2 with ⟨ha, _, _⟩ | ⟨ha, _, _⟩ <;> rw [ha]
      · rw [setMessage_length]; exact hc
      · rw [List.length_append]; omega
    have hkeep1 : (getC (registerMsg st msg msgid).1.arena c).parent
          = (getC st.arena c).parent ∧
        (getC (registerMsg st msg msgid).1.arena c).message
          = (getC st.arena c).message := by
      rcases hreg.2 with ⟨ha, _, _⟩ | ⟨ha, _, _⟩ <;> rw [ha]
      · rw [setMessage, getC_setC_ne hpar_ne.symm]
        exact ⟨rfl, rfl⟩
      · rw [getC_append hc]
        exact ⟨rfl, rfl⟩
    have hni1 : ∀ kv ∈ (registerMsg st msg msgid).1.idTable, kv.2 ≠ c := by
      rcases hreg.2 with ⟨_, hid, _⟩ | ⟨_, hid, _⟩ <;> rw [hid]
      · exact hni
      · intro kv hkv
        rcases List.mem_append.mp hkv with h1 | h2
        · exact hni kv h1
        · simp only [List.mem_singleton] at h2
          rw [h2]
          intro hcon
          simp only at hcon
          omega
    have hlr := linkRefs_keep (get_references (registerMsg st msg msgid).1.arena
        (registerMsg st msg msgid).2) (registerMsg st msg msgid).1 none c hc1 hni1
    have hpar_ne2 : c ≠ (registerMsg st msg msgid).2 := fun he => hpar_ne he.symm
    have hls := linkSelf_keep
      (linkRefs (registerMsg st msg msgid).1 none
        (get_references (registerMsg st msg msgid).1.arena (registerMsg st msg msgid).2)).1
      (linkRefs (registerMsg st msg msgid).1 none
        (get_references (registerMsg st msg msgid).1.arena (registerMsg st msg msgid).2)).2
      (registerMsg st msg msgid).2 c hpar_ne2
    refine ⟨?_, ?_, ?_, ?_⟩
    · rw [linkSelf_length]
      exact hlr.1
    · rw [hls.1, hlr.2.1, hkeep1.1]
    · rw [hls.2, hlr.2.2.1, hkeep1.2]
    · rw [linkSelf_idTable]
      exact hlr.2.2.2

theorem processMsg_idBound (st : TState) (msg : LMsg) (hb : IdBound st) :
    IdBound (processMsg st msg) := by
  rw [processMsg]
  cases hmid : angleToken (msg.header "Message-ID") with
  | none =>
    intro kv hkv
    show kv.2 < (st.arena ++ [(⟨none, some msg, [], none⟩ : Cont)]).length
    rw [List.length_append]
    have := hb kv hkv
    omega
  | some msgid =>
    have hreg := registerMsg_cases st msg msgid
    have hb1 : IdBound (registerMsg st msg msgid).1 := by
      intro kv hkv
      rcases hreg.2 with ⟨ha, hid, _⟩ | ⟨ha, hid, _⟩ <;> rw [ha] <;> rw [hid] at hkv
      · rw [setMessage_length]
        exact hb kv hkv
      · rw [List.length_append]
        rcases List.mem_append.mp hkv with h1 | h2
        · have := hb kv h1
          omega
        · simp only [List.mem_singleton] at h2
          rw [h2]
          simp
    intro kv hkv
    rw [linkSelf_idTable] at hkv
    rw [linkSelf_length]
    exact linkRefs_idBound _ _ _ hb1 kv hkv

theorem processMsg_roots_mono (st : TState) (msg : LMsg) (c : Nat)
    (h : c ∈ st.roots) : c ∈ (processMsg st msg).roots := by
  rw [processMsg]
  cases hmid : angleToken (msg.header "Message-ID") with
  | none =>
    show c ∈ st.roots ++ [st.arena.length]
    exact List.mem_append_left _ h
  | some msgid =>
    rw [linkSelf_roots, linkRefs_roots, (registerMsg_cases st msg msgid).1]
    exact h

theorem foldl_processMsg_keep (msgs : List LMsg) (st : TState) (c : Nat)
    (hb : IdBound st) (hc : c < st.arena.length)
    (hni : ∀ kv ∈ st.idTable, kv.2 ≠ c) :
    (getC (msgs.foldl processMsg st).arena c).parent = (getC st.arena c).parent ∧
    (getC (msgs.foldl processMsg st).arena c).message = (getC st.arena c).message := by
  induction msgs generalizing st with
  | nil => exact ⟨rfl, rfl⟩
  | cons m rest ih =>
    rw [List.foldl_cons]
    have hp := processMsg_keep st m c hb hc hni
    have hres := ih (processMsg st m) (processMsg_idBound st m hb) hp.1 hp.2.2.2
    exact ⟨hres.1.trans hp.2.1, hres.2.trans hp.2.2.1⟩

theorem foldl_processMsg_roots (msgs : List LMsg) (st : TState) (c : Nat)
    (h : c ∈ st.roots) : c ∈ (msgs.foldl processMsg st).roots := by
  induction msgs generalizing st with
  | nil => exact h
  | cons m rest ih =>
    rw [List.foldl_cons]
    exact ih (processMsg st m) (processMsg_roots_mono st m c h)

theorem foldl_processMsg_idBound (msgs : List LMsg) (st : TState)
    (hb : IdBound st) : IdBound (msgs.foldl processMsg st) := by
  induction msgs generalizing st with
  | nil => exact hb
  | cons m rest ih =>
    rw [List.foldl_cons]
    exact ih (processMsg st m) (processMsg_idBound st m hb)

theorem step2_arena (st : TState) : (step2 st).arena = st.arena := rfl

theorem step2_roots_mono (st : TState) (c : Nat) (h : c ∈ st.roots) :
    c ∈ (step2 st).roots := List.mem_append_left _ h

/-- A seen local message used to back the threading examples. -/
def curMsg : CMsg := ⟨"/m/cur/x:2,S".toList, false, []⟩

/-- A local message with no flags, hence `is_new()` holds. -/
def unreadCMsg : CMsg := ⟨"/m/cur/y".toList, false, []⟩

/-- A message with Message-ID `<1>` and subject `"Widget"`. -/
def msgSubjWidget : LMsg := ⟨"<1>".toList, [], [], "Widget".toList, curMsg, 10⟩

/-- A message with an empty Message-ID header and subject `"Re: Widget"`. -/
def msgNoId : LMsg := ⟨[], [], [], "Re: Widget".toList, curMsg, 20⟩

/-- Mutually-referencing pair: `<a>` references `<b>`. -/
def msgMutualA : LMsg := ⟨"<a>".toList, "<b>".toList, [], [], curMsg, 1⟩

/-- Mutually-referencing pair: `<b>` references `<a>`. -/
def msgMutualB : LMsg := ⟨"<b>".toList, "<a>".toList, [], [], curMsg, 2⟩

/-- A message whose References chain links `<p> → <c>`. -/
def msgRefChain : LMsg := ⟨"<x>".toList, "<p> <c>".toList, [], [], curMsg, 1⟩

/-- The message `<c>` itself, later, referencing `<q>` instead. -/
def msgRefOverride : LMsg := ⟨"<c>".toList, "<q>".toList, [], [], curMsg, 2⟩

/-- An unread message for the `promote_unread` scenario. -/
def msgUnread : LMsg := ⟨"<u>".toList, [], [], [], unreadCMsg, 1⟩

/-- C5 counterexample.  A message without a Message-ID token is placed as
its own root during step 1, but subject grouping (step 5.C) can still make
it a child: with root subjects `"Widget"` and `"Re: Widget"`, the no-id
reply ends up as the child of the `"Widget"` root in the final forest. -/
theorem threader_no_msgid_child_cex :
    angleToken (msgNoId.header "Message-ID") = none ∧
    threadForest [msgSubjWidget, msgNoId]
      = [.node (some msgSubjWidget) [.node (some msgNoId) []]] := ⟨rfl, rfl⟩

/-- C5 (amended).  A message whose Message-ID header yields no
angle-bracket token is given its own fresh container, which is in the root
set after steps 1–2, still holds that message, and has no parent: the
reference-linking phase never links it under any container.  (Subject
grouping may still attach it later, as the counterexample shows.) -/
theorem step1_no_msgid_root (pre post : List LMsg) (msg : LMsg)
    (hnoid : angleToken (msg.header "Message-ID") = none) :
    (step1 pre).arena.length ∈ (step2 (step1 (pre ++ msg :: post))).roots ∧
    (getC (step2 (step1 (pre ++ msg :: post))).arena
        (step1 pre).arena.length).message = some msg ∧
    (getC (step2 (step1 (pre ++ msg :: post))).arena
        (step1 pre).arena.length).parent = none := by
  have hfold : step1 (pre ++ msg :: post)
      = post.foldl processMsg (processMsg (step1 pre) msg) := by
    rw [step1, List.foldl_append, List.foldl_cons]
    rfl
  have hb0 : IdBound (step1 pre) :=
    foldl_processMsg_idBound pre _ (by intro kv hkv; simp at hkv)
  have hst1 : processMsg (step1 pre) msg
      = { step1 pre with
          arena := (step1 pre).arena ++ [(⟨none, some msg, [], none⟩ : Cont)],
          roots := (step1 pre).roots ++ [(step1 pre).arena.length] } := by
    rw [processMsg, hnoid]
    rfl
  have hmem1 : (step1 pre).arena.length ∈ (processMsg (step1 pre) msg).roots := by
    rw [hst1]
    exact List.mem_append_right _ (List.mem_singleton.mpr rfl)
  have hb1 : IdBound (processMsg (step1 pre) msg) :=
    processMsg_idBound _ _ hb0
  have hi1 : (step1 pre).arena.length < (processMsg (step1 pre) msg).arena.length := by
    rw [hst1]
    simp only [List.length_append, List.length_cons, List.length_nil]
    omega
  have hni1 : ∀ kv ∈ (processMsg (step1 pre) msg).idTable,
      kv.2 ≠ (step1 pre).arena.length := by
    rw [hst1]
    intro kv hkv
    have := hb0 kv hkv
    omega
  have hget1 : getC (processMsg (step1 pre) msg).arena (step1 pre).arena.length
      = ⟨none, some msg, [], none⟩ := by
    rw [hst1]
    exact getC_append_self ..
  have hkeep := foldl_processMsg_keep post (processMsg (step1 pre) msg)
    (step1 pre).arena.length hb1 hi1 hni1
  have hroots := foldl_processMsg_roots post (processMsg (step1 pre) msg)
    (step1 pre).arena.length hmem1
  rw [hfold]
  refine ⟨step2_roots_mono _ _ hroots, ?_, ?_⟩
  · rw [step2_arena, hkeep.2, hget1]
  · rw [step2_arena, hkeep.1, hget1]

/-- C5 witness. -/
theorem step1_no_msgid_root_witness :
    (step1 [msgSubjWidget]).arena.length
      ∈ (step2 (step1 ([msgSubjWidget] ++ msgNoId :: []))).roots ∧
    (getC (step2 (step1 ([msgSubjWidget] ++ msgNoId :: []))).arena
        (step1 [msgSubjWidget]).arena.length).message = some msgNoId ∧
    (getC (step2 (step1 ([msgSubjWidget] ++ msgNoId :: []))).arena
        (step1 [msgSubjWidget]).arena.length).parent = none :=
  step1_no_msgid_root [msgSubjWidget] [] msgNoId rfl

/-- C6 counterexample.  The first-established link does not always win:
processing `<x>` (References `<p> <c>`) links `<c>` under `<p>`; processing
the message `<c>` itself (References `<q>`) afterwards re-parents `<c>`
under `<q>` in step 1.C, which has no `parent = none` guard. -/
theorem threader_reparent_cex :
    alGet (step1 [msgRefChain]).idTable "p".toList = some 1 ∧
    alGet (step1 [msgRefChain]).idTable "c".toList = some 2 ∧
    (getC (step1 [msgRefChain]).arena 2).parent = some 1 ∧
    alGet (step1 [msgRefChain, msgRefOverride]).idTable "q".toList = some 3 ∧
    (getC (step1 [msgRefChain, msgRefOverride]).arena 2).parent = some 3 ∧
    (3 : Nat) ≠ 1 :=
  ⟨rfl, rfl, rfl, rfl, rfl, by decide⟩

/-- C6 (amended).  During reference-chain linking (step 1.B) a link is
established only for a child container with no parent and only when it
creates no cycle, so a container's existing parent is never changed by
1.B — the first-established link wins there; in step 1.C only the cycle
guard applies, so the message's own container can be re-parented (latest
link wins, see the counterexample).  For two mutually-referencing messages
threading terminates and exactly one parent/child direction survives. -/
theorem linkRefs_guards_and_mutual :
    (∀ (refs : List Str) (st : TState) (prev : Option Nat) (c p0 : Nat),
        (getC st.arena c).parent = some p0 →
        (getC (linkRefs st prev refs).1.arena c).parent = some p0) ∧
    threadForest [msgMutualA, msgMutualB]
      = [.node (some msgMutualB) [.node (some msgMutualA) []]] :=
  ⟨fun refs st prev c p0 h => linkRefs_first_link_wins refs st prev c p0 h, rfl⟩

/-- C6 witness. -/
theorem linkRefs_guards_and_mutual_witness :
    (getC (linkRefs (step1 [msgRefChain]) none [['q']]).1.arena 2).parent
        = some 1 ∧
    threadForest [msgMutualA, msgMutualB]
      = [.node (some msgMutualB) [.node (some msgMutualA) []]] :=
  ⟨linkRefs_guards_and_mutual.1 [['q']] (step1 [msgRefChain]) none 2 1 rfl,
   linkRefs_guards_and_mutual.2⟩

/-- C7.  The `promote_unread` loop of `Threader.sort` is
`table.insert(roots, table.remove(i))`: it passes the numeric index `i`
where `table.remove` expects a table, so as soon as some root's subtree
contains an unread message the call raises a Lua error instead of
partitioning the roots. -/
theorem threader_sort_promote_error :
    LMsg.is_new msgUnread = true ∧
    has_unread ([⟨none, some msgUnread, [], none⟩] : Arena) 1 0 = true ∧
    threaderSort (fun _ _ => false) true
        ([⟨none, some msgUnread, [], none⟩] : Arena) [0]
      = .error "bad argument #1 to remove (table expected, got number)" :=
  ⟨rfl, rfl, rfl⟩

end Lumail
